import Mathlib

/-! # Consistent hash ring (`hash_ring.c`)

A shallow embedding of the ring of `src/hash_ring.c` and the properties of its
position table, binary search and node registry.

Modelling conventions.

* A key argument `(uint8_t *key, uint32_t keyLen)` is an `Option (List Nat)`:
  `none` is the `NULL` pointer, `some bytes` is a buffer of `keyLen = bytes.length`
  bytes.
* A pointer to a node is modelled by the node it was created for; the registry
  (the `ll_t` linked list) is the list of its nodes, head first.
* `ring->items` is the allocated array of item pointers: a list with one slot per
  allocated element; a slot that `realloc` has added and that was never written
  holds `none`.
* Functions whose C execution can leave defined behaviour (an array access
  outside the allocation, a read of a slot never written, `int` overflow) return
  an `Option`; `none` is that fault.
* The counters `numNodes`, `numItems` are natural numbers (their C types are
  declared in `hash_ring.h`, which is not part of the sources). The locals
  declared `int` are integers checked against `INT_MAX`.
* `malloc` and `realloc` are taken to succeed.
* The SHA-1 routines (`sha1.h`) and the array sorter (`bubble_sort.h`) are
  parameters of the operations that call them.
-/

namespace HashRing

/-! ## Data model -/

/-- The two return codes of the mutating calls. Their numeric values are declared
in `hash_ring.h`; the code only tests them for (in)equality. -/
inductive ReturnCode where
  | HASH_RING_OK
  | HASH_RING_ERR
  deriving DecidableEq, Repr

open ReturnCode

/-- A registered node: the bytes of its key (`key`, `keyLen`). -/
structure hash_ring_node_t where
  key : List Nat
  deriving DecidableEq, Repr

/-- Length field of a node. -/
def hash_ring_node_t.keyLen (node : hash_ring_node_t) : Nat := node.key.length

/-- A replica entry of the position table: owning node and 64-bit position. -/
structure hash_ring_item_t where
  node : hash_ring_node_t
  number : Nat
  deriving DecidableEq, Repr

/-- The ring: `numReplicas`, registry `nodes`, `numNodes`, the allocated array
`items` and `numItems`. -/
structure hash_ring_t where
  numReplicas : Nat
  nodes : List hash_ring_node_t
  numNodes : Nat
  items : List (Option hash_ring_item_t)
  numItems : Nat
  deriving DecidableEq, Repr

/-- What is left in a `SHA1Context` after `SHA1Result`: the five digest words. -/
structure SHA1Context where
  Message_Digest : Nat → Nat

/-- The digest routine as the ring uses it: `SHA1Reset`, `SHA1Input` of all the
bytes given, `SHA1Result`. `none` stands for `SHA1Result(&ctx) != 1`. -/
abbrev SHA1 := List Nat → Option SHA1Context

/-- The array sorter: called with the comparator and the array to sort. -/
abbrev Sorter :=
  (hash_ring_item_t → hash_ring_item_t → Int) → List hash_ring_item_t → List hash_ring_item_t

/-- Largest value of a C `int` (32 bits). -/
def INT_MAX : Int := 2147483647

/-! ## Operations -/

/-- `hash_ring_create`: `NULL` (`none`) when `numReplicas <= 0`. -/
def hash_ring_create (numReplicas : Nat) : Option hash_ring_t :=
  if numReplicas ≤ 0 then none
  else some
    { numReplicas := numReplicas, nodes := [], numNodes := 0, items := [], numItems := 0 }

/-- The 64-bit position built from digest words 3 and 4:
`number = Message_Digest[3]; number <<= 32; number |= Message_Digest[4]`. -/
def digest_number (ctx : SHA1Context) : Nat :=
  (((ctx.Message_Digest 3 % 2 ^ 32) <<< 32) % 2 ^ 64) ||| (ctx.Message_Digest 4 % 2 ^ 32)

/-- `snprintf(buf, size, "%d", x)` for `x ≥ 0`: the bytes stored in `buf`
(at most `size - 1` digits and the terminating zero) and the value returned
(the number of digits of `x`). -/
def snprintf_d (size : Nat) (x : Nat) : List Nat × Nat :=
  let digits := (Nat.toDigits 10 x).map Char.toNat
  (digits.take (size - 1) ++ [0], digits.length)

/-- The bytes `SHA1Input(&sha1_ctx, concat_buf, concat_len)` reads for replica
index `x`: the first `concat_len` bytes of the 8-byte `concat_buf`. Reading past
what `snprintf` stored leaves the buffer: fault. -/
def concat_input (x : Nat) : Option (List Nat) :=
  let r := snprintf_d 8 x
  if r.2 ≤ r.1.length then some (r.1.take r.2) else none

/-- `realloc(p, n * sizeof(elem))`: the first `n` slots are kept, slots added are
not initialised. -/
def realloc (items : List (Option hash_ring_item_t)) (n : Nat) :
    List (Option hash_ring_item_t) :=
  items.take n ++ List.replicate (n - items.length) none

/-- The `for` loop of `hash_ring_add_items`. The first argument counts the
iterations left (`numReplicas - x`), the second is the loop variable `x`. -/
def add_items_loop (sha1 : SHA1) (node : hash_ring_node_t) (numNodes numReplicas : Nat) :
    Nat → Nat → List (Option hash_ring_item_t) →
    Option (ReturnCode × List (Option hash_ring_item_t))
  | 0, _, items => some (HASH_RING_OK, items)
  | n + 1, x, items =>
    match concat_input x with
    | none => none
    | some suffix =>
      match sha1 (node.key ++ suffix) with
      | none => some (HASH_RING_ERR, items)
      | some ctx =>
        let idx := (numNodes - 1) * numReplicas + x
        if idx < items.length then
          add_items_loop sha1 node numNodes numReplicas n (x + 1)
            (items.set idx (some { node := node, number := digest_number ctx }))
        else none

/-- `hash_ring_add_items`: resize the array to `numNodes * numReplicas` slots,
write the replicas of `node` at `(numNodes - 1) * numReplicas + x`, then
`numItems += numReplicas`. -/
def hash_ring_add_items (sha1 : SHA1) (ring : hash_ring_t) (node : hash_ring_node_t) :
    Option (ReturnCode × hash_ring_t) :=
  let resized := realloc ring.items (ring.numNodes * ring.numReplicas)
  match add_items_loop sha1 node ring.numNodes ring.numReplicas ring.numReplicas 0 resized with
  | none => none
  | some (HASH_RING_ERR, items) => some (HASH_RING_ERR, { ring with items := items })
  | some (HASH_RING_OK, items) =>
    some (HASH_RING_OK, { ring with items := items, numItems := ring.numItems + ring.numReplicas })

/-- Comparator `item_sort`. -/
def item_sort (a b : hash_ring_item_t) : Int :=
  if a.number < b.number then -1
  else if a.number > b.number then 1
  else 0

/-- `memcmp(a, b, n) == 0`. -/
def memcmp_eq (a b : List Nat) (n : Nat) : Bool := a.take n == b.take n

/-- The test both registry scans apply to a node. -/
def key_matches (key : List Nat) (node : hash_ring_node_t) : Bool :=
  node.keyLen == key.length && memcmp_eq node.key key key.length

/-- `hash_ring_get_node`: the first node of the registry with the given key. -/
def hash_ring_get_node (ring : hash_ring_t) (key : Option (List Nat)) :
    Option hash_ring_node_t :=
  match key with
  | none => none
  | some k => if k.length ≤ 0 then none else ring.nodes.find? (key_matches k)

/-- The scan of `hash_ring_remove_node`: the registry without the first node
that has the given key, `none` when no node has it. -/
def unlink_node (key : List Nat) : List hash_ring_node_t → Option (List hash_ring_node_t)
  | [] => none
  | node :: rest =>
    if key_matches key node then some rest
    else (unlink_node key rest).map (fun l => node :: l)

/-- `hash_ring_remove_node`: unlink the node and `numNodes--`; the array and
`numItems` are not touched. -/
def hash_ring_remove_node (ring : hash_ring_t) (key : Option (List Nat)) :
    ReturnCode × hash_ring_t :=
  match key with
  | none => (HASH_RING_ERR, ring)
  | some k =>
    if k.length ≤ 0 then (HASH_RING_ERR, ring)
    else
      match unlink_node k ring.nodes with
      | some nodes => (HASH_RING_OK, { ring with nodes := nodes, numNodes := ring.numNodes - 1 })
      | none => (HASH_RING_ERR, ring)

/-- All slots of a range of the array, `none` if one of them was never written. -/
def readAll : List (Option hash_ring_item_t) → Option (List hash_ring_item_t)
  | [] => some []
  | none :: _ => none
  | some a :: rest => (readAll rest).map (fun l => a :: l)

/-- The position table `items[0..numItems)`, when it lies inside the allocation
and all of it has been written. -/
def table (ring : hash_ring_t) : Option (List hash_ring_item_t) :=
  if ring.numItems ≤ ring.items.length then readAll (ring.items.take ring.numItems) else none

/-- `bubble_sort_array((void**)ring->items, ring->numItems, item_sort)`: the sorter
works on `items[0..numItems)`. -/
def sort_items (sorter : Sorter) (ring : hash_ring_t) : Option hash_ring_t :=
  match table ring with
  | none => none
  | some l =>
    some { ring with items := (sorter item_sort l).map some ++ ring.items.drop ring.numItems }

/-- `hash_ring_add_node`. -/
def hash_ring_add_node (sha1 : SHA1) (sorter : Sorter) (ring : hash_ring_t)
    (key : Option (List Nat)) : Option (ReturnCode × hash_ring_t) :=
  if (hash_ring_get_node ring key).isSome then some (HASH_RING_ERR, ring)
  else
    match key with
    | none => some (HASH_RING_ERR, ring)
    | some k =>
      if k.length ≤ 0 then some (HASH_RING_ERR, ring)
      else
        let node : hash_ring_node_t := { key := k }
        let ring1 := { ring with nodes := node :: ring.nodes, numNodes := ring.numNodes + 1 }
        match hash_ring_add_items sha1 ring1 node with
        | none => none
        | some (HASH_RING_ERR, ring2) =>
          some (HASH_RING_ERR, (hash_ring_remove_node ring2 (some node.key)).2)
        | some (HASH_RING_OK, ring2) =>
          (sort_items sorter ring2).map (fun ring3 => (HASH_RING_OK, ring3))

/-- Read `items[i]` for an `int` index: fault outside the allocation or on a slot
never written. -/
def read_item (items : List (Option hash_ring_item_t)) (i : Int) : Option hash_ring_item_t :=
  if 0 ≤ i then (items[i.toNat]?).join else none

/-- The `while(1)` loop of `hash_ring_find_next_highest_item` on `int min, max`.
The first argument bounds the number of iterations; running out of them is
`none` as well, and the theorems below show that the result is a `some`. The
midpoint `min + max` is checked against `INT_MAX`, the division is the truncating
division of C. -/
def find_loop (ring : hash_ring_t) (num : Nat) : Nat → Int → Int → Option hash_ring_item_t
  | 0, _, _ => none
  | fuel + 1, min, max =>
    if min > max then
      if min = (ring.numItems : Int) then read_item ring.items 0
      else read_item ring.items min
    else if min + max > INT_MAX then none
    else
      let midpointIndex := (min + max).tdiv 2
      match read_item ring.items midpointIndex with
      | none => none
      | some item =>
        if item.number > num then find_loop ring num fuel min (midpointIndex - 1)
        else if item.number ≤ num then find_loop ring num fuel (midpointIndex + 1) max
        else find_loop ring num fuel min max

/-- `hash_ring_find_next_highest_item`: `some none` is the `NULL` returned for an
empty table, `some (some item)` a returned item, `none` a fault. The loop is given
`numItems + 1` iterations. -/
def hash_ring_find_next_highest_item (ring : hash_ring_t) (num : Nat) :
    Option (Option hash_ring_item_t) :=
  if ring.numItems = 0 then some none
  else if (ring.numItems : Int) - 1 > INT_MAX then none
  else (find_loop ring num (ring.numItems + 1) 0 ((ring.numItems : Int) - 1)).map some

/-- `hash_ring_find_node`: `some none` is `NULL`. -/
def hash_ring_find_node (sha1 : SHA1) (ring : hash_ring_t) (key : Option (List Nat)) :
    Option (Option hash_ring_node_t) :=
  match key with
  | none => some none
  | some k =>
    if k.length ≤ 0 then some none
    else
      match sha1 k with
      | none => some none
      | some ctx =>
        (hash_ring_find_next_highest_item ring (digest_number ctx)).map
          (fun r => r.map (fun item => item.node))

/-! ## Trace of the binary search -/

/-- The values of `(min, max)` at the head of each iteration of the loop of
`hash_ring_find_next_highest_item`, in order: the recursion of `find_loop`,
recording the state where `find_loop` goes on or returns. -/
def find_trace (ring : hash_ring_t) (num : Nat) : Nat → Int → Int → List (Int × Int)
  | 0, _, _ => []
  | fuel + 1, min, max =>
    (min, max) ::
      (if min > max then []
       else if min + max > INT_MAX then []
       else
         match read_item ring.items ((min + max).tdiv 2) with
         | none => []
         | some item =>
           if item.number > num then find_trace ring num fuel min ((min + max).tdiv 2 - 1)
           else if item.number ≤ num then find_trace ring num fuel ((min + max).tdiv 2 + 1) max
           else find_trace ring num fuel min max)

/-! ## Call sequences -/

/-- A mutating call on a ring. -/
inductive Op where
  | add (key : Option (List Nat))
  | remove (key : Option (List Nat))
  deriving DecidableEq, Repr

/-- One call: the return code and the ring after it (`none`: the call faults). -/
def step (sha1 : SHA1) (sorter : Sorter) (ring : hash_ring_t) :
    Op → Option (ReturnCode × hash_ring_t)
  | Op.add key => hash_ring_add_node sha1 sorter ring key
  | Op.remove key => some (hash_ring_remove_node ring key)

/-- The ring after a sequence of calls. -/
def run (sha1 : SHA1) (sorter : Sorter) : hash_ring_t → List Op → Option hash_ring_t
  | ring, [] => some ring
  | ring, op :: ops =>
    match step sha1 sorter ring op with
    | none => none
    | some (_, ring1) => run sha1 sorter ring1 ops

/-- `hash_ring_create(numReplicas)` followed by a sequence of calls. -/
def run_from_create (sha1 : SHA1) (sorter : Sorter) (numReplicas : Nat) (ops : List Op) :
    Option hash_ring_t :=
  match hash_ring_create numReplicas with
  | none => none
  | some ring => run sha1 sorter ring ops

/-- Successive `hash_ring_add_node` calls that all return `HASH_RING_OK`: the ring
after the last of them; `none` when one of the calls faults or returns
`HASH_RING_ERR`. -/
def add_all (sha1 : SHA1) (sorter : Sorter) :
    hash_ring_t → List (Option (List Nat)) → Option hash_ring_t
  | ring, [] => some ring
  | ring, key :: keys =>
    match hash_ring_add_node sha1 sorter ring key with
    | some (HASH_RING_OK, ring1) => add_all sha1 sorter ring1 keys
    | _ => none

/-- The table is non-decreasing by hash value. -/
def SortedByNumber (l : List hash_ring_item_t) : Prop :=
  List.Pairwise (fun a b => a.number ≤ b.number) l

/-- What is assumed of the external sorter: with `item_sort` it returns a
permutation of its input in non-decreasing order. -/
def SorterSpec (sorter : Sorter) : Prop :=
  ∀ l, SortedByNumber (sorter item_sort l) ∧ (sorter item_sort l).Perm l

/-! ## Notions used to state the properties -/

/-- Number of table entries owned by `node`. -/
def owned_count (node : hash_ring_node_t) (l : List hash_ring_item_t) : Nat :=
  l.countP (fun it => decide (it.node = node))

/-- The entry `e` answers the probe `v` on the table `l`: its hash is the least
hash above `v`, or no hash is above `v` and its hash is the least of the table. -/
def Answers (l : List hash_ring_item_t) (v : Nat) (e : hash_ring_item_t) : Prop :=
  e ∈ l ∧
  ((v < e.number ∧ ∀ x ∈ l, v < x.number → e.number ≤ x.number) ∨
   ((∀ x ∈ l, x.number ≤ v) ∧ ∀ x ∈ l, e.number ≤ x.number))

/-- The decimal ASCII string of `i`. -/
def decimal_string (i : Nat) : List Nat := (Nat.toDigits 10 i).map Char.toNat

/-- The placement value of replica `i` of `key` in the words of the specification:
word 3 times `2 ^ 32` plus word 4 of the digest of `key` followed by the decimal
string of `i`. -/
def spec_replica_number (sha1 : SHA1) (key : List Nat) (i : Nat) : Option Nat :=
  (sha1 (key ++ decimal_string i)).map
    (fun ctx => (ctx.Message_Digest 3 % 2 ^ 32) * 2 ^ 32 + ctx.Message_Digest 4 % 2 ^ 32)

/-! ## Invariants -/

/-- Registry invariant: `numNodes` counts the registry, no key is empty, no node
occurs twice. -/
def RegistryInv (ring : hash_ring_t) : Prop :=
  ring.numNodes = ring.nodes.length ∧ (∀ n ∈ ring.nodes, n.key ≠ []) ∧ ring.nodes.Nodup

/-- Table invariant of the rings built while every digest computation succeeds:
the array is exactly the table, the table is sorted, and it has at least
`numReplicas` entries per registered node. -/
def TableInv (ring : hash_ring_t) : Prop :=
  1 ≤ ring.numReplicas ∧ ring.numNodes * ring.numReplicas ≤ ring.numItems ∧
  ∃ l, ring.items = l.map some ∧ ring.numItems = l.length ∧ SortedByNumber l

/-! ## Concrete collaborators used to evaluate the code -/

/-- A sorter with the behaviour the ring expects of `bubble_sort_array`:
ascending for the comparator. -/
def insertion_sorter : Sorter :=
  fun cmp l => l.insertionSort (fun a b => cmp a b ≤ 0)

/-- A digest for evaluation: word 3 is the length of the message, word 4 the sum
of its bytes, the other words are zero. It never fails. -/
def length_sum_digest : SHA1 :=
  fun msg => some { Message_Digest := fun i =>
    if i = 3 then msg.length else if i = 4 then msg.sum else 0 }

/-- A digest that fails on the message `B1` (bytes 66, 49), the input of replica
index 1 of the key `B`, and is `length_sum_digest` otherwise. -/
def failing_digest : SHA1 :=
  fun msg => if msg = [66, 49] then none else length_sum_digest msg

/-- A ring whose table holds three entries with hashes 10, 20, 30. -/
def sample_ring : hash_ring_t :=
  { numReplicas := 1,
    nodes := [{ key := [67] }, { key := [66] }, { key := [65] }],
    numNodes := 3,
    items := [some { node := { key := [65] }, number := 10 },
              some { node := { key := [66] }, number := 20 },
              some { node := { key := [67] }, number := 30 }],
    numItems := 3 }

/-- The table of `sample_ring`. -/
def sample_table : List hash_ring_item_t :=
  [{ node := { key := [65] }, number := 10 },
   { node := { key := [66] }, number := 20 },
   { node := { key := [67] }, number := 30 }]

/-- The ring after `create(3); add "A"; add "B"` with `length_sum_digest`. -/
def ring_AB : hash_ring_t :=
  { numReplicas := 3,
    nodes := [{ key := [66] }, { key := [65] }],
    numNodes := 2,
    items := [some { node := { key := [65] }, number := 8589934705 },
              some { node := { key := [65] }, number := 8589934706 },
              some { node := { key := [66] }, number := 8589934706 },
              some { node := { key := [65] }, number := 8589934707 },
              some { node := { key := [66] }, number := 8589934707 },
              some { node := { key := [66] }, number := 8589934708 }],
    numItems := 6 }

/-- The ring `hash_ring_remove_node` leaves when `A` is removed from `ring_AB`:
only the registry and `numNodes` differ. -/
def ring_AB_removed_A : hash_ring_t :=
  { ring_AB with nodes := [{ key := [66] }], numNodes := 1 }

/-- A ring whose table is not sorted: hashes 30, 10, 20. -/
def unsorted_ring : hash_ring_t :=
  { numReplicas := 1,
    nodes := [{ key := [67] }, { key := [66] }, { key := [65] }],
    numNodes := 3,
    items := [some { node := { key := [65] }, number := 30 },
              some { node := { key := [66] }, number := 10 },
              some { node := { key := [67] }, number := 20 }],
    numItems := 3 }

/-- The table of `unsorted_ring`. -/
def unsorted_table : List hash_ring_item_t :=
  [{ node := { key := [65] }, number := 30 },
   { node := { key := [66] }, number := 10 },
   { node := { key := [67] }, number := 20 }]

/-- The ring after `create(1); add "A"` with `length_sum_digest`. -/
def ring_A : hash_ring_t :=
  { numReplicas := 1,
    nodes := [{ key := [65] }],
    numNodes := 1,
    items := [some { node := { key := [65] }, number := 8589934705 }],
    numItems := 1 }

/-- The ring after `create(1); add "A"; add "C"` with `length_sum_digest`. -/
def ring_AC : hash_ring_t :=
  { numReplicas := 1,
    nodes := [{ key := [67] }, { key := [65] }],
    numNodes := 2,
    items := [some { node := { key := [65] }, number := 8589934705 },
              some { node := { key := [67] }, number := 8589934707 }],
    numItems := 2 }

/-- The ring after `create(1); add "A"; add "B"; remove "A"` with
`length_sum_digest`: the registry holds `B`, the table still holds both entries. -/
def ring_B_after_remove : hash_ring_t :=
  { numReplicas := 1,
    nodes := [{ key := [66] }],
    numNodes := 1,
    items := [some { node := { key := [65] }, number := 8589934705 },
              some { node := { key := [66] }, number := 8589934706 }],
    numItems := 2 }

/-! # Theorems -/

/-! ## The position table as a list -/

theorem readAll_eq_some {xs : List (Option hash_ring_item_t)} {l : List hash_ring_item_t}
    (h : readAll xs = some l) : xs = l.map some := by
  induction xs generalizing l with
  | nil => simp [readAll] at h; simp [← h]
  | cons x xs ih =>
    cases x with
    | none => simp [readAll] at h
    | some a =>
      simp only [readAll, Option.map_eq_some'] at h
      obtain ⟨l1, h1, rfl⟩ := h
      simp [ih h1]

theorem readAll_map_some (l : List hash_ring_item_t) : readAll (l.map some) = some l := by
  induction l with
  | nil => rfl
  | cons a l ih => simp [readAll, ih]

theorem table_take {ring : hash_ring_t} {l : List hash_ring_item_t} (h : table ring = some l) :
    ring.numItems ≤ ring.items.length ∧ ring.items.take ring.numItems = l.map some := by
  unfold table at h
  split at h
  · exact ⟨by assumption, readAll_eq_some h⟩
  · exact absurd h (by simp)

theorem table_length {ring : hash_ring_t} {l : List hash_ring_item_t} (h : table ring = some l) :
    l.length = ring.numItems := by
  obtain ⟨hle, htake⟩ := table_take h
  have := congrArg List.length htake
  simp at this
  omega

theorem table_getElem? {ring : hash_ring_t} {l : List hash_ring_item_t} (h : table ring = some l)
    (i : Nat) (hi : i < l.length) : ring.items[i]? = some (some l[i]) := by
  obtain ⟨_, htake⟩ := table_take h
  have hlen := table_length h
  have h1 : (ring.items.take ring.numItems)[i]? = ring.items[i]? := by
    rw [List.getElem?_take, if_pos (by omega)]
  rw [← h1, htake]
  simp [hi]

theorem read_item_table {ring : hash_ring_t} {l : List hash_ring_item_t}
    (h : table ring = some l) (i : Nat) (hi : i < l.length) :
    read_item ring.items (i : Int) = some l[i] := by
  unfold read_item
  simp [table_getElem? h i hi]

theorem sorted_le {l : List hash_ring_item_t} (hs : SortedByNumber l) {i j : Nat}
    (hij : i ≤ j) (hi : i < l.length) (hj : j < l.length) : l[i].number ≤ l[j].number := by
  rcases Nat.eq_or_lt_of_le hij with rfl | hlt
  · exact le_refl _
  · exact (List.pairwise_iff_getElem.mp hs) i j hi hj hlt


/-! ## The binary search -/

/-- Loop invariant of the search: with `min = lo` and `max = hi - 1`, everything
below `lo` is at most `v`, everything from `hi` on is above `v`; the loop then
returns from the boundary index between the two regions. -/
theorem find_loop_boundary {ring : hash_ring_t} {l : List hash_ring_item_t}
    (h : table ring = some l) (hs : SortedByNumber l) (v : Nat)
    (hsize : l.length ≤ 2 ^ 30) :
    ∀ (fuel lo hi : Nat), lo ≤ hi → hi ≤ l.length → hi - lo < fuel →
      (∀ j (hj : j < l.length), j < lo → l[j].number ≤ v) →
      (∀ j (hj : j < l.length), hi ≤ j → v < l[j].number) →
      ∃ i, i ≤ l.length ∧ (∀ j (hj : j < l.length), j < i → l[j].number ≤ v) ∧
        (∀ j (hj : j < l.length), i ≤ j → v < l[j].number) ∧
        find_loop ring v fuel (lo : Int) ((hi : Int) - 1)
          = if i = ring.numItems then read_item ring.items 0
            else read_item ring.items (i : Int) := by
  intro fuel
  induction fuel with
  | zero => intro lo hi _ _ hf; omega
  | succ fuel ih =>
    intro lo hi hlohi hhi hf hlow hhigh
    rcases Nat.eq_or_lt_of_le hlohi with heq | hlt
    · subst heq
      refine ⟨lo, hhi, hlow, hhigh, ?_⟩
      have hgt : (lo : Int) > (lo : Int) - 1 := by omega
      simp only [find_loop, if_pos hgt, Nat.cast_inj]
    · have hngt : ¬ ((lo : Int) > (hi : Int) - 1) := by omega
      have hnov : ¬ ((lo : Int) + ((hi : Int) - 1) > INT_MAX) := by
        unfold INT_MAX
        have : (hi : Int) ≤ 2 ^ 30 := by exact_mod_cast le_trans hhi hsize
        norm_num at this
        omega
      have hmid : ((lo : Int) + ((hi : Int) - 1)).tdiv 2 = (((lo + hi - 1) / 2 : Nat) : Int) := by
        rw [Int.tdiv_eq_ediv (by omega) (by decide)]
        omega
      have hm1 : lo ≤ (lo + hi - 1) / 2 := by omega
      have hm2 : (lo + hi - 1) / 2 < hi := by omega
      have hml : (lo + hi - 1) / 2 < l.length := by omega
      have hread := read_item_table h ((lo + hi - 1) / 2) hml
      simp only [find_loop, if_neg hngt, if_neg hnov, hmid, hread]
      by_cases hcmp : l[(lo + hi - 1) / 2].number > v
      · simp only [if_pos hcmp]
        have := ih lo ((lo + hi - 1) / 2) hm1 (by omega) (by omega) hlow
          (fun j hj hmj => lt_of_lt_of_le hcmp (sorted_le hs hmj hml hj))
        simpa using this
      · have hle : l[(lo + hi - 1) / 2].number ≤ v := by omega
        simp only [if_neg hcmp, if_pos hle]
        have := ih ((lo + hi - 1) / 2 + 1) hi (by omega) hhi (by omega)
          (fun j hj hjm => le_trans (sorted_le hs (by omega) hj hml) hle) hhigh
        simpa using this

/-- On a sorted table of at most `2 ^ 30` entries the search returns from the
boundary index `i`: entries before `i` are at most `v`, entries from `i` on are
above `v`; `i = numItems` wraps to slot `0`. -/
theorem find_next_highest_item_boundary {ring : hash_ring_t} {l : List hash_ring_item_t}
    (h : table ring = some l) (hs : SortedByNumber l) (hne : l ≠ []) (v : Nat)
    (hsize : l.length ≤ 2 ^ 30) :
    ∃ i, i ≤ l.length ∧ (∀ j (hj : j < l.length), j < i → l[j].number ≤ v) ∧
      (∀ j (hj : j < l.length), i ≤ j → v < l[j].number) ∧
      hash_ring_find_next_highest_item ring v
        = some (if i = l.length then l[0]? else l[i]?) := by
  have hlen := table_length h
  have hpos : 0 < l.length := List.length_pos.mpr hne
  obtain ⟨i, hi, hlow, hhigh, hfind⟩ :=
    find_loop_boundary h hs v hsize (ring.numItems + 1) 0 l.length (Nat.zero_le _) (le_refl _)
      (by omega) (fun j _ hj => absurd hj (Nat.not_lt_zero j)) (fun j hj hj2 => absurd hj (by omega))
  refine ⟨i, hi, hlow, hhigh, ?_⟩
  have h0 : ¬ ring.numItems = 0 := by omega
  have hmax : ¬ ((ring.numItems : Int) - 1 > INT_MAX) := by
    unfold INT_MAX
    have : (ring.numItems : Int) ≤ 2 ^ 30 := by exact_mod_cast hlen ▸ hsize
    norm_num at this
    omega
  have hfind2 : find_loop ring v (ring.numItems + 1) 0 ((ring.numItems : Int) - 1)
      = if i = ring.numItems then read_item ring.items 0 else read_item ring.items (i : Int) := by
    rw [hlen] at hfind; simpa using hfind
  unfold hash_ring_find_next_highest_item
  rw [if_neg h0, if_neg hmax, hfind2]
  have hr0 : read_item ring.items 0 = l[0]? := by
    have := read_item_table h 0 hpos
    simp only [Nat.cast_zero] at this
    rw [this]; simp [hpos]
  by_cases hin : i = l.length
  · rw [if_pos (by omega), if_pos hin, hr0]; simp [hpos]
  · have hil : i < l.length := by omega
    rw [if_neg (by omega), if_neg hin, read_item_table h i hil]
    simp [hil]


/-- C1: on a non-empty table sorted non-decreasing by hash (of at most `2 ^ 30`
entries, so that the `int` midpoint `min + max` stays within `INT_MAX`), for a
probe `v` below some entry's hash, `hash_ring_find_next_highest_item` returns the
entry at the smallest index `i` with `items[i].number > v`; that entry has the least
hash among the hashes above `v`. -/
theorem C1_find_next_highest_item_least_index (ring : hash_ring_t) (l : List hash_ring_item_t)
    (v : Nat) (htable : table ring = some l) (hsorted : SortedByNumber l) (hne : l ≠ [])
    (hsize : l.length ≤ 2 ^ 30) (hex : ∃ e ∈ l, v < e.number) :
    ∃ (i : Nat) (hi : i < l.length),
      hash_ring_find_next_highest_item ring v = some (some l[i]) ∧
      v < l[i].number ∧
      (∀ j (hj : j < l.length), v < l[j].number → i ≤ j) ∧
      (∀ e ∈ l, v < e.number → l[i].number ≤ e.number) := by
  obtain ⟨i, hi, hlow, hhigh, hfind⟩ :=
    find_next_highest_item_boundary htable hsorted hne v hsize
  obtain ⟨e, hel, hev⟩ := hex
  obtain ⟨j, hj, rfl⟩ := List.getElem_of_mem hel
  have hil : i < l.length := by
    by_contra hcon
    have := hlow j hj (by omega)
    omega
  refine ⟨i, hil, ?_, hhigh i hil (le_refl _), ?_, ?_⟩
  · rw [hfind, if_neg (by omega)]
    simp [hil]
  · intro j2 hj2 hv2
    by_contra hcon
    have := hlow j2 hj2 (by omega)
    omega
  · intro e2 he2 hv2
    obtain ⟨j2, hj2, rfl⟩ := List.getElem_of_mem he2
    have hij : i ≤ j2 := by
      by_contra hcon
      have := hlow j2 hj2 (by omega)
      omega
    exact sorted_le hsorted hij hil hj2

/-- C1 at `sample_ring` with probe 15: the hypotheses hold and the entry with hash
20 is returned. -/
theorem C1_find_next_highest_item_least_index_witness :
    table sample_ring = some sample_table ∧ SortedByNumber sample_table ∧
    (∃ (i : Nat) (hi : i < sample_table.length),
      hash_ring_find_next_highest_item sample_ring 15 = some (some sample_table[i]) ∧
      15 < sample_table[i].number ∧
      (∀ j (hj : j < sample_table.length), 15 < sample_table[j].number → i ≤ j) ∧
      (∀ e ∈ sample_table, 15 < e.number → sample_table[i].number ≤ e.number)) :=
  ⟨by decide, by unfold SortedByNumber; decide,
   C1_find_next_highest_item_least_index sample_ring sample_table 15 (by decide)
     (by unfold SortedByNumber; decide) (by decide) (by decide)
     ⟨{ node := { key := [66] }, number := 20 }, by decide, by decide⟩⟩

/-- C2 (wrap-around): on a non-empty table sorted non-decreasing by hash (of at
most `2 ^ 30` entries), for a probe `v` that is at least every entry's hash,
`hash_ring_find_next_highest_item` returns `items[0]`, whose hash is the lowest of
the table. -/
theorem C2_find_next_highest_item_wraps (ring : hash_ring_t) (l : List hash_ring_item_t)
    (v : Nat) (htable : table ring = some l) (hsorted : SortedByNumber l) (hne : l ≠ [])
    (hsize : l.length ≤ 2 ^ 30) (hall : ∀ e ∈ l, e.number ≤ v) :
    hash_ring_find_next_highest_item ring v = some (some (l.head hne)) ∧
    ring.items[0]? = some (some (l.head hne)) ∧
    (∀ e ∈ l, (l.head hne).number ≤ e.number) := by
  obtain ⟨i, hi, hlow, hhigh, hfind⟩ :=
    find_next_highest_item_boundary htable hsorted hne v hsize
  have hpos : 0 < l.length := List.length_pos.mpr hne
  have hhead : l.head hne = l[0] := by
    cases l with
    | nil => exact absurd rfl hne
    | cons a t => rfl
  have hil : i = l.length := by
    by_contra hcon
    have hlt : i < l.length := by omega
    have h1 := hhigh i hlt (le_refl _)
    have h2 := hall l[i] (List.getElem_mem _)
    omega
  refine ⟨?_, ?_, ?_⟩
  · rw [hfind, if_pos hil, hhead]
    simp [hpos]
  · rw [table_getElem? htable 0 hpos, hhead]
  · intro e he
    obtain ⟨j, hj, rfl⟩ := List.getElem_of_mem he
    rw [hhead]
    exact sorted_le hsorted (Nat.zero_le j) hpos hj

/-- C2 at `sample_ring` with probe 30, the largest hash of the table: the entry
with hash 10 at index 0 is returned. -/
theorem C2_find_next_highest_item_wraps_witness :
    hash_ring_find_next_highest_item sample_ring 30
      = some (some { node := { key := [65] }, number := 10 }) :=
  (C2_find_next_highest_item_wraps sample_ring sample_table 30 (by decide)
    (by unfold SortedByNumber; decide) (by decide) (by decide) (by decide)).1


/-! ## Registry -/

theorem key_matches_iff (k : List Nat) (node : hash_ring_node_t) :
    key_matches k node = true ↔ node.key = k := by
  unfold key_matches memcmp_eq hash_ring_node_t.keyLen
  constructor
  · intro h
    simp only [Bool.and_eq_true, beq_iff_eq] at h
    obtain ⟨h1, h2⟩ := h
    rw [← h1, List.take_length] at h2
    rw [h1, List.take_length] at h2
    simpa using h2
  · intro h
    simp [h]

theorem get_node_isSome_iff (ring : hash_ring_t) (k : List Nat) (hk : k ≠ []) :
    (hash_ring_get_node ring (some k)).isSome = true ↔ ∃ n ∈ ring.nodes, n.key = k := by
  have hlen : ¬ k.length ≤ 0 := by
    have := List.length_pos.mpr hk
    omega
  simp only [hash_ring_get_node, if_neg hlen, List.find?_isSome, key_matches_iff]

theorem unlink_node_some {k : List Nat} {nodes nodes1 : List hash_ring_node_t}
    (h : unlink_node k nodes = some nodes1) :
    nodes1.Sublist nodes ∧ nodes1.length + 1 = nodes.length := by
  induction nodes generalizing nodes1 with
  | nil => simp [unlink_node] at h
  | cons n rest ih =>
    unfold unlink_node at h
    split at h
    · cases h
      exact ⟨List.sublist_cons_self _ _, rfl⟩
    · simp only [Option.map_eq_some'] at h
      obtain ⟨l1, h1, rfl⟩ := h
      obtain ⟨hs, hl⟩ := ih h1
      exact ⟨hs.cons₂ n, by simp [hl]⟩

theorem unlink_node_of_mem {k : List Nat} {nodes : List hash_ring_node_t}
    (h : ∃ n ∈ nodes, n.key = k) : ∃ nodes1, unlink_node k nodes = some nodes1 := by
  induction nodes with
  | nil => simp at h
  | cons n rest ih =>
    unfold unlink_node
    by_cases hm : key_matches k n = true
    · exact ⟨rest, by simp [hm]⟩
    · have hne : n.key ≠ k := fun hc => hm ((key_matches_iff k n).mpr hc)
      obtain ⟨m, hmem, hmk⟩ := h
      have hrest : ∃ n ∈ rest, n.key = k := by
        rcases List.mem_cons.mp hmem with rfl | hin
        · exact absurd hmk hne
        · exact ⟨m, hin, hmk⟩
      obtain ⟨l1, hl1⟩ := ih hrest
      exact ⟨n :: l1, by simp [hm, hl1]⟩

/-- A node with the unlinked key is gone from a duplicate-free registry. -/
theorem unlink_node_not_mem {k : List Nat} {nodes nodes1 : List hash_ring_node_t}
    (hnd : nodes.Nodup) (h : unlink_node k nodes = some nodes1) :
    ∀ n ∈ nodes1, n.key ≠ k := by
  induction nodes generalizing nodes1 with
  | nil => simp [unlink_node] at h
  | cons n rest ih =>
    unfold unlink_node at h
    have hnd2 := List.nodup_cons.mp hnd
    split at h
    · rename_i hm
      cases h
      intro m hmem hmk
      have h1 := (key_matches_iff k n).mp hm
      have : m = n := by
        cases m; cases n; simp_all
      exact hnd2.1 (this ▸ hmem)
    · rename_i hm
      simp only [Option.map_eq_some'] at h
      obtain ⟨l1, h1, rfl⟩ := h
      intro m hmem
      rcases List.mem_cons.mp hmem with rfl | hin
      · exact fun hc => hm ((key_matches_iff k m).mpr hc)
      · exact ih hnd2.2 h1 m hin

/-- What `hash_ring_remove_node` returns. -/
theorem remove_node_cases (ring : hash_ring_t) (key : Option (List Nat)) :
    hash_ring_remove_node ring key = (HASH_RING_ERR, ring) ∨
    ∃ k nodes1, key = some k ∧ k ≠ [] ∧ unlink_node k ring.nodes = some nodes1 ∧
      hash_ring_remove_node ring key
        = (HASH_RING_OK, { ring with nodes := nodes1, numNodes := ring.numNodes - 1 }) := by
  cases key with
  | none => left; rfl
  | some k =>
    by_cases hk : k.length ≤ 0
    · left; simp [hash_ring_remove_node, hk]
    · cases hu : unlink_node k ring.nodes with
      | none => left; simp [hash_ring_remove_node, hk, hu]
      | some nodes1 =>
        right
        refine ⟨k, nodes1, rfl, ?_, hu, ?_⟩
        · intro hc; simp [hc] at hk
        · simp [hash_ring_remove_node, hk, hu]

theorem remove_node_items (ring : hash_ring_t) (key : Option (List Nat)) :
    (hash_ring_remove_node ring key).2.items = ring.items ∧
    (hash_ring_remove_node ring key).2.numItems = ring.numItems ∧
    (hash_ring_remove_node ring key).2.numReplicas = ring.numReplicas := by
  rcases remove_node_cases ring key with h | ⟨k, nodes1, _, _, _, h⟩ <;> simp [h]

theorem remove_node_registry {ring : hash_ring_t} (key : Option (List Nat))
    (h : RegistryInv ring) : RegistryInv (hash_ring_remove_node ring key).2 := by
  rcases remove_node_cases ring key with he | ⟨k, nodes1, _, _, hu, he⟩
  · rw [he]; exact h
  · rw [he]
    obtain ⟨h1, h2, h3⟩ := h
    obtain ⟨hs, hl⟩ := unlink_node_some hu
    exact ⟨by simp only; omega, fun n hn => h2 n (hs.subset hn), h3.sublist hs⟩


/-! ## Adding a node -/

theorem realloc_length (items : List (Option hash_ring_item_t)) (n : Nat) :
    (realloc items n).length = n := by
  unfold realloc
  simp only [List.length_append, List.length_take, List.length_replicate]
  omega

theorem add_items_loop_length (sha1 : SHA1) (node : hash_ring_node_t) (numNodes numReplicas : Nat) :
    ∀ (n x : Nat) (items items1 : List (Option hash_ring_item_t)) (rc : ReturnCode),
      add_items_loop sha1 node numNodes numReplicas n x items = some (rc, items1) →
      items1.length = items.length := by
  intro n
  induction n with
  | zero =>
    intro x items items1 rc h
    simp only [add_items_loop, Option.some.injEq, Prod.mk.injEq] at h
    rw [h.2]
  | succ n ih =>
    intro x items items1 rc h
    unfold add_items_loop at h
    split at h
    · exact absurd h (by simp)
    · split at h
      · simp only [Option.some.injEq, Prod.mk.injEq] at h
        rw [h.2]
      · simp only at h
        split at h
        · have := ih _ _ _ _ h
          simpa using this
        · exact absurd h (by simp)

/-- While the digest never fails, the loop can only end with `HASH_RING_OK`. -/
theorem add_items_loop_ok (sha1 : SHA1) (hsha : ∀ msg, (sha1 msg).isSome = true)
    (node : hash_ring_node_t) (numNodes numReplicas : Nat) :
    ∀ (n x : Nat) (items items1 : List (Option hash_ring_item_t)) (rc : ReturnCode),
      add_items_loop sha1 node numNodes numReplicas n x items = some (rc, items1) →
      rc = HASH_RING_OK := by
  intro n
  induction n with
  | zero =>
    intro x items items1 rc h
    simp only [add_items_loop, Option.some.injEq, Prod.mk.injEq] at h
    rw [h.1]
  | succ n ih =>
    intro x items items1 rc h
    unfold add_items_loop at h
    split at h
    · exact absurd h (by simp)
    · split at h
      · rename_i suffix _ _ hnone
        have := hsha (node.key ++ suffix)
        rw [hnone] at this
        exact absurd this (by simp)
      · simp only at h
        split at h
        · exact ih _ _ _ _ h
        · exact absurd h (by simp)

/-- The fields of the ring after `hash_ring_add_items`. -/
theorem add_items_spec {sha1 : SHA1} {ring ring2 : hash_ring_t} {node : hash_ring_node_t}
    {rc : ReturnCode} (h : hash_ring_add_items sha1 ring node = some (rc, ring2)) :
    ring2.nodes = ring.nodes ∧ ring2.numNodes = ring.numNodes ∧
    ring2.numReplicas = ring.numReplicas ∧
    ring2.items.length = ring.numNodes * ring.numReplicas ∧
    ring2.numItems
      = (if rc = HASH_RING_OK then ring.numItems + ring.numReplicas else ring.numItems) := by
  unfold hash_ring_add_items at h
  simp only at h
  split at h
  · exact absurd h (by simp)
  · rename_i items hl
    have hlen := add_items_loop_length _ _ _ _ _ _ _ _ _ hl
    rw [realloc_length] at hlen
    simp only [Option.some.injEq, Prod.mk.injEq] at h
    obtain ⟨rfl, rfl⟩ := h
    simp [hlen]
  · rename_i items hl
    have hlen := add_items_loop_length _ _ _ _ _ _ _ _ _ hl
    rw [realloc_length] at hlen
    simp only [Option.some.injEq, Prod.mk.injEq] at h
    obtain ⟨rfl, rfl⟩ := h
    simp [hlen]

theorem add_items_ok {sha1 : SHA1} (hsha : ∀ msg, (sha1 msg).isSome = true)
    {ring ring2 : hash_ring_t} {node : hash_ring_node_t}
    {rc : ReturnCode} (h : hash_ring_add_items sha1 ring node = some (rc, ring2)) :
    rc = HASH_RING_OK := by
  unfold hash_ring_add_items at h
  simp only at h
  split at h
  · exact absurd h (by simp)
  · rename_i items hl
    exact absurd (add_items_loop_ok sha1 hsha _ _ _ _ _ _ _ _ hl) (by simp)
  · simp only [Option.some.injEq, Prod.mk.injEq] at h
    exact h.1.symm

/-- The three ways `hash_ring_add_node` returns: rejected with the ring untouched;
replicas failed and the node was unlinked again; replicas added and the table
sorted. -/
theorem add_node_cases {sha1 : SHA1} {sorter : Sorter} {ring ring3 : hash_ring_t}
    {key : Option (List Nat)} {rc : ReturnCode}
    (h : hash_ring_add_node sha1 sorter ring key = some (rc, ring3)) :
    (rc = HASH_RING_ERR ∧ ring3 = ring) ∨
    (∃ k ring2, key = some k ∧ k ≠ [] ∧ (∀ n ∈ ring.nodes, n.key ≠ k) ∧
      hash_ring_add_items sha1
        { ring with nodes := { key := k } :: ring.nodes, numNodes := ring.numNodes + 1 }
        { key := k } = some (HASH_RING_ERR, ring2) ∧
      rc = HASH_RING_ERR ∧
      ring3 = { ring2 with nodes := ring.nodes, numNodes := ring.numNodes }) ∨
    (∃ k ring2 l, key = some k ∧ k ≠ [] ∧ (∀ n ∈ ring.nodes, n.key ≠ k) ∧
      hash_ring_add_items sha1
        { ring with nodes := { key := k } :: ring.nodes, numNodes := ring.numNodes + 1 }
        { key := k } = some (HASH_RING_OK, ring2) ∧
      table ring2 = some l ∧ rc = HASH_RING_OK ∧
      ring3 = { ring2 with
        items := (sorter item_sort l).map some ++ ring2.items.drop ring2.numItems }) := by
  unfold hash_ring_add_node at h
  split at h
  · left
    simp only [Option.some.injEq, Prod.mk.injEq] at h
    exact ⟨h.1.symm, h.2.symm⟩
  · rename_i hget
    split at h
    · left
      simp only [Option.some.injEq, Prod.mk.injEq] at h
      exact ⟨h.1.symm, h.2.symm⟩
    · rename_i k
      split at h
      · left
        simp only [Option.some.injEq, Prod.mk.injEq] at h
        exact ⟨h.1.symm, h.2.symm⟩
      · rename_i hk
        have hkne : k ≠ [] := by
          intro hc; simp [hc] at hk
        have hfresh : ∀ n ∈ ring.nodes, n.key ≠ k := by
          intro n hn hc
          exact hget ((get_node_isSome_iff ring k hkne).mpr ⟨n, hn, hc⟩)
        simp only at h
        split at h
        · exact absurd h (by simp)
        · rename_i ring2 hadd
          right; left
          obtain ⟨hn2, hnn2, _, _, _⟩ := add_items_spec hadd
          simp only at hn2 hnn2
          have hunlink : unlink_node k ring2.nodes = some ring.nodes := by
            rw [hn2]
            simp [unlink_node, (key_matches_iff k { key := k }).mpr rfl]
          simp only [Option.some.injEq, Prod.mk.injEq] at h
          refine ⟨k, ring2, rfl, hkne, hfresh, hadd, h.1.symm, ?_⟩
          rw [← h.2]
          simp [hash_ring_remove_node, hk, hunlink, hnn2]
        · rename_i ring2 hadd
          right; right
          unfold sort_items at h
          split at h
          · exact absurd h (by simp)
          · rename_i l hl
            simp only [Option.map_some', Option.some.injEq, Prod.mk.injEq] at h
            exact ⟨k, ring2, l, rfl, hkne, hfresh, hadd, hl, h.1.symm, h.2.symm⟩


/-! ## Invariants along call sequences -/

theorem add_node_registry {sha1 : SHA1} {sorter : Sorter} {ring ring3 : hash_ring_t}
    {key : Option (List Nat)} {rc : ReturnCode} (hinv : RegistryInv ring)
    (h : hash_ring_add_node sha1 sorter ring key = some (rc, ring3)) : RegistryInv ring3 := by
  obtain ⟨h1, h2, h3⟩ := hinv
  rcases add_node_cases h with ⟨_, rfl⟩ | ⟨k, ring2, _, _, _, _, _, rfl⟩ |
    ⟨k, ring2, l, _, hk, hfresh, hadd, _, _, rfl⟩
  · exact ⟨h1, h2, h3⟩
  · exact ⟨h1, h2, h3⟩
  · obtain ⟨hn2, hnn2, _, _, _⟩ := add_items_spec hadd
    simp only at hn2 hnn2
    refine ⟨?_, ?_, ?_⟩
    · simp only [hn2, hnn2, List.length_cons, h1]
    · intro n hn
      simp only [hn2, List.mem_cons] at hn
      rcases hn with rfl | hn
      · exact hk
      · exact h2 n hn
    · simp only [hn2]
      exact List.nodup_cons.mpr ⟨fun hmem => hfresh _ hmem rfl, h3⟩

theorem table_of_inv {ring : hash_ring_t} {l : List hash_ring_item_t}
    (hitems : ring.items = l.map some) (hnum : ring.numItems = l.length) :
    table ring = some l := by
  unfold table
  have hlen : ring.items.length = l.length := by rw [hitems]; simp
  rw [if_pos (by omega), hnum, ← hlen, List.take_length, hitems]
  exact readAll_map_some l

theorem add_node_table {sha1 : SHA1} {sorter : Sorter}
    (hsha : ∀ msg, (sha1 msg).isSome = true) (hsort : SorterSpec sorter)
    {ring ring3 : hash_ring_t} {key : Option (List Nat)} {rc : ReturnCode}
    (hinv : TableInv ring)
    (h : hash_ring_add_node sha1 sorter ring key = some (rc, ring3)) : TableInv ring3 := by
  rcases add_node_cases h with ⟨_, rfl⟩ | ⟨k, ring2, _, _, _, hadd, _, _⟩ |
    ⟨k, ring2, l, _, hk, hfresh, hadd, htable, _, rfl⟩
  · exact hinv
  · exact absurd (add_items_ok hsha hadd) (by simp)
  · obtain ⟨hR, hle, l0, hitems, hnum, hsorted⟩ := hinv
    obtain ⟨_, hnn2, hr2, hlen2, hni2⟩ := add_items_spec hadd
    simp only [if_pos] at hnn2 hr2 hlen2 hni2
    obtain ⟨hcap, _⟩ := table_take htable
    have hl := table_length htable
    have hmul : (ring.numNodes + 1) * ring.numReplicas
        = ring.numNodes * ring.numReplicas + ring.numReplicas := by ring
    have hfull : ring2.items.length ≤ ring2.numItems := by omega
    obtain ⟨hs3, hp3⟩ := hsort l
    refine ⟨by simp only [hr2]; exact hR, by simp only [hnn2, hr2, hni2]; omega,
      sorter item_sort l, ?_, ?_, hs3⟩
    · simp [List.drop_eq_nil_of_le hfull]
    · simp only [hp3.length_eq, hl]

theorem remove_node_table {ring : hash_ring_t} (key : Option (List Nat))
    (h : TableInv ring) :
    TableInv (hash_ring_remove_node ring key).2 := by
  rcases remove_node_cases ring key with he | ⟨k, nodes1, _, _, hu, he⟩
  · rw [he]; exact h
  · rw [he]
    obtain ⟨hR, hle, l0, hitems, hnum, hsorted⟩ := h
    refine ⟨hR, ?_, l0, hitems, hnum, hsorted⟩
    have : (ring.numNodes - 1) * ring.numReplicas ≤ ring.numNodes * ring.numReplicas :=
      Nat.mul_le_mul_right _ (Nat.sub_le _ _)
    simp only
    omega

/-- A property kept by every call holds after every call sequence. -/
theorem run_invariant {sha1 : SHA1} {sorter : Sorter} (P : hash_ring_t → Prop)
    (hstep : ∀ ring op rc ring1, P ring → step sha1 sorter ring op = some (rc, ring1) → P ring1) :
    ∀ (ops : List Op) (ring ring1 : hash_ring_t), P ring →
      run sha1 sorter ring ops = some ring1 → P ring1 := by
  intro ops
  induction ops with
  | nil =>
    intro ring ring1 hP h
    simp only [run, Option.some.injEq] at h
    exact h ▸ hP
  | cons op ops ih =>
    intro ring ring1 hP h
    unfold run at h
    split at h
    · exact absurd h (by simp)
    · rename_i rc ring2 hs
      exact ih ring2 ring1 (hstep ring op rc ring2 hP hs) h

theorem step_registry {sha1 : SHA1} {sorter : Sorter} (ring : hash_ring_t) (op : Op)
    (rc : ReturnCode) (ring1 : hash_ring_t) (hinv : RegistryInv ring)
    (h : step sha1 sorter ring op = some (rc, ring1)) : RegistryInv ring1 := by
  cases op with
  | add key => exact add_node_registry hinv h
  | remove key =>
    simp only [step, Option.some.injEq] at h
    have := remove_node_registry key hinv
    rw [h] at this
    exact this

theorem create_spec {numReplicas : Nat} {ring : hash_ring_t}
    (h : hash_ring_create numReplicas = some ring) :
    1 ≤ numReplicas ∧
    ring = { numReplicas := numReplicas, nodes := [], numNodes := 0, items := [], numItems := 0 } := by
  unfold hash_ring_create at h
  split at h
  · exact absurd h (by simp)
  · simp only [Option.some.injEq] at h
    exact ⟨by omega, h.symm⟩

/-- Every ring reached from `hash_ring_create` satisfies the registry invariant. -/
theorem reachable_registry {sha1 : SHA1} {sorter : Sorter} {numReplicas : Nat} {ops : List Op}
    {ring : hash_ring_t} (h : run_from_create sha1 sorter numReplicas ops = some ring) :
    RegistryInv ring := by
  unfold run_from_create at h
  split at h
  · exact absurd h (by simp)
  · rename_i ring0 hc
    obtain ⟨_, rfl⟩ := create_spec hc
    exact run_invariant RegistryInv step_registry ops _ ring
      ⟨rfl, fun n hn => absurd hn (List.not_mem_nil n), List.nodup_nil⟩ h

/-- While every digest computation succeeds and the sorter meets its
specification, every ring reached from `hash_ring_create` satisfies the registry
and the table invariant. -/
theorem reachable_table {sha1 : SHA1} {sorter : Sorter}
    (hsha : ∀ msg, (sha1 msg).isSome = true) (hsort : SorterSpec sorter)
    {numReplicas : Nat} {ops : List Op} {ring : hash_ring_t}
    (h : run_from_create sha1 sorter numReplicas ops = some ring) :
    RegistryInv ring ∧ TableInv ring := by
  unfold run_from_create at h
  split at h
  · exact absurd h (by simp)
  · rename_i ring0 hc
    obtain ⟨hR, rfl⟩ := create_spec hc
    refine run_invariant (fun r => RegistryInv r ∧ TableInv r) ?_ ops _ ring
      ⟨⟨rfl, fun n hn => absurd hn (List.not_mem_nil n), List.nodup_nil⟩,
       ⟨hR, by simp, [], rfl, rfl, List.Pairwise.nil⟩⟩ h
    intro r op rc r1 hinv hs
    refine ⟨step_registry r op rc r1 hinv.1 hs, ?_⟩
    cases op with
    | add key => exact add_node_table hsha hsort hinv.2 hs
    | remove key =>
      simp only [step, Option.some.injEq] at hs
      have := remove_node_table key hinv.2
      rw [hs] at this
      exact this


/-! ## Lookup after registry changes -/

theorem find_loop_congr {r1 r2 : hash_ring_t} (hitems : r1.items = r2.items)
    (hnum : r1.numItems = r2.numItems) (v : Nat) :
    ∀ (fuel : Nat) (min max : Int), find_loop r1 v fuel min max = find_loop r2 v fuel min max := by
  intro fuel
  induction fuel with
  | zero => intro min max; rfl
  | succ fuel ih =>
    intro min max
    simp only [find_loop, hitems, hnum, ih]

theorem find_node_congr (sha1 : SHA1) {r1 r2 : hash_ring_t} (hitems : r1.items = r2.items)
    (hnum : r1.numItems = r2.numItems) (key : Option (List Nat)) :
    hash_ring_find_node sha1 r1 key = hash_ring_find_node sha1 r2 key := by
  have hfind : ∀ v, hash_ring_find_next_highest_item r1 v
      = hash_ring_find_next_highest_item r2 v := by
    intro v
    simp only [hash_ring_find_next_highest_item, hnum, find_loop_congr hitems hnum]
  simp only [hash_ring_find_node, hfind]

theorem item_sort_le_iff (a b : hash_ring_item_t) : item_sort a b ≤ 0 ↔ a.number ≤ b.number := by
  unfold item_sort
  split
  · simp; omega
  · split
    · simp; omega
    · simp; omega

theorem insertion_sorter_spec : SorterSpec insertion_sorter := by
  intro l
  haveI : IsTotal hash_ring_item_t (fun a b => item_sort a b ≤ 0) :=
    ⟨fun a b => by simp only [item_sort_le_iff]; exact le_total _ _⟩
  haveI : IsTrans hash_ring_item_t (fun a b => item_sort a b ≤ 0) :=
    ⟨fun a b c => by simp only [item_sort_le_iff]; exact le_trans⟩
  refine ⟨?_, List.perm_insertionSort _ l⟩
  have hs := List.sorted_insertionSort (fun a b => item_sort a b ≤ 0) l
  exact List.Pairwise.imp (fun {a b} hab => (item_sort_le_iff a b).mp hab) hs

theorem length_sum_digest_total : ∀ msg, (length_sum_digest msg).isSome = true :=
  fun _ => rfl

/-- C6 (minimal disruption): in a ring built from `hash_ring_create` by
`hash_ring_add_node` calls only, with at least two nodes, let `n` be a registered
node and `k` a non-empty probe key that `hash_ring_find_node` routes to a node
`m ≠ n`. Then `hash_ring_remove_node` of `n` succeeds, `n` leaves the registry, and
`k` is routed to the same node `m` afterwards. (The removal leaves `items` and
`numItems` as they are, so the proof does not use the side conditions on the
number of nodes, on `k` and on `m`.) -/
theorem C6_minimal_disruption (sha1 : SHA1) (sorter : Sorter) (numReplicas : Nat)
    (keys : List (Option (List Nat))) (ring : hash_ring_t)
    (hreach : run_from_create sha1 sorter numReplicas (keys.map Op.add) = some ring)
    (hnodes : 2 ≤ ring.nodes.length)
    (n : hash_ring_node_t) (hn : n ∈ ring.nodes) (k : List Nat) (hk : k ≠ [])
    (m : hash_ring_node_t)
    (hbefore : hash_ring_find_node sha1 ring (some k) = some (some m)) (hmn : m ≠ n) :
    (hash_ring_remove_node ring (some n.key)).1 = HASH_RING_OK ∧
    n ∉ (hash_ring_remove_node ring (some n.key)).2.nodes ∧
    hash_ring_find_node sha1 (hash_ring_remove_node ring (some n.key)).2 (some k)
      = some (some m) := by
  obtain ⟨_, hkeys, hnd⟩ := reachable_registry hreach
  have hex : ∃ n1 ∈ ring.nodes, n1.key = n.key := ⟨n, hn, rfl⟩
  obtain ⟨nodes1, hu⟩ := unlink_node_of_mem hex
  have hlen : ¬ n.key.length ≤ 0 := by
    have := List.length_pos.mpr (hkeys n hn)
    omega
  have hrem : hash_ring_remove_node ring (some n.key)
      = (HASH_RING_OK, { ring with nodes := nodes1, numNodes := ring.numNodes - 1 }) := by
    simp [hash_ring_remove_node, hlen, hu]
  rw [hrem]
  refine ⟨rfl, fun hmem => unlink_node_not_mem hnd hu n hmem rfl, ?_⟩
  have hsame := @find_node_congr sha1
    { ring with nodes := nodes1, numNodes := ring.numNodes - 1 } ring rfl rfl (some k)
  exact hsame.trans hbefore

/-- C6 at `ring_AB` (`create(3); add "A"; add "B"`): the key `x` is routed to `A`,
and still is after `B` has been removed. -/
theorem C6_minimal_disruption_witness :
    run_from_create length_sum_digest insertion_sorter 3
        ([some [65], some [66]].map Op.add) = some ring_AB ∧
    hash_ring_find_node length_sum_digest ring_AB (some [120]) = some (some { key := [65] }) ∧
    (hash_ring_remove_node ring_AB (some [66])).1 = HASH_RING_OK ∧
    ({ key := [66] } : hash_ring_node_t) ∉ (hash_ring_remove_node ring_AB (some [66])).2.nodes ∧
    hash_ring_find_node length_sum_digest (hash_ring_remove_node ring_AB (some [66])).2
      (some [120]) = some (some { key := [65] }) :=
  ⟨by decide, by decide,
   C6_minimal_disruption length_sum_digest insertion_sorter 3 [some [65], some [66]] ring_AB
     (by decide) (by decide) { key := [66] } (by decide) [120] (by decide) { key := [65] }
     (by decide) (by decide)⟩

/-- C7 (duplicate rejection): if `key` has the same length and the same bytes as
the key of a node of the registry, `hash_ring_add_node` returns `HASH_RING_ERR` and
the ring (registry, `numNodes`, `numItems`, array) is the one before the call. -/
theorem C7_duplicate_rejected (sha1 : SHA1) (sorter : Sorter) (ring : hash_ring_t)
    (key : List Nat)
    (hdup : ∃ node ∈ ring.nodes, node.keyLen = key.length ∧ node.key = key) :
    hash_ring_add_node sha1 sorter ring (some key) = some (HASH_RING_ERR, ring) := by
  obtain ⟨node, hmem, _, hkey⟩ := hdup
  by_cases hk : key = []
  · subst hk
    simp [hash_ring_add_node, hash_ring_get_node]
  · have := (get_node_isSome_iff ring key hk).mpr ⟨node, hmem, hkey⟩
    simp [hash_ring_add_node, this]

/-- C7 at `ring_AB`: adding `B` again is rejected and the ring is unchanged. -/
theorem C7_duplicate_rejected_witness :
    hash_ring_add_node length_sum_digest insertion_sorter ring_AB (some [66])
      = some (HASH_RING_ERR, ring_AB) :=
  C7_duplicate_rejected length_sum_digest insertion_sorter ring_AB [66]
    ⟨{ key := [66] }, by decide, by decide, by decide⟩

/-- C9 (route fails only on an empty ring): while every digest computation
succeeds and the sorter meets its specification, in every ring reached from
`hash_ring_create` by add and remove calls that has a registered node (and at most
`2 ^ 30` table entries, so that the `int` midpoint cannot overflow),
`hash_ring_find_node` returns a node for every non-empty key. And for every ring,
`hash_ring_find_next_highest_item` returns `NULL` only when `numItems = 0`. -/
theorem C9_find_node_returns_node (sha1 : SHA1) (sorter : Sorter)
    (hsha : ∀ msg, (sha1 msg).isSome = true) (hsort : SorterSpec sorter)
    (numReplicas : Nat) (ops : List Op) (ring : hash_ring_t)
    (hreach : run_from_create sha1 sorter numReplicas ops = some ring)
    (hnodes : ring.nodes ≠ []) (hsize : ring.numItems ≤ 2 ^ 30)
    (k : List Nat) (hk : k ≠ []) :
    (∃ node, hash_ring_find_node sha1 ring (some k) = some (some node)) ∧
    (∀ (r : hash_ring_t) (v : Nat),
      hash_ring_find_next_highest_item r v = some none → r.numItems = 0) := by
  constructor
  · obtain ⟨⟨hnn, _, _⟩, hR, hle, l, hitems, hnum, hsorted⟩ := reachable_table hsha hsort hreach
    have htable := table_of_inv hitems hnum
    have hpos : 0 < ring.nodes.length := List.length_pos.mpr hnodes
    have hmul : 1 * 1 ≤ ring.numNodes * ring.numReplicas :=
      Nat.mul_le_mul (by omega) hR
    have hne : l ≠ [] := by
      intro hc
      rw [hc] at hnum
      simp only [List.length_nil] at hnum
      omega
    have hlen : ¬ k.length ≤ 0 := by
      have := List.length_pos.mpr hk
      omega
    cases hd : sha1 k with
    | none =>
      have := hsha k
      rw [hd] at this
      exact absurd this (by simp)
    | some ctx =>
      obtain ⟨i, hi, _, _, hfind⟩ :=
        find_next_highest_item_boundary htable hsorted hne (digest_number ctx)
          (by rw [← hnum]; exact hsize)
      have hl0 : 0 < l.length := List.length_pos.mpr hne
      by_cases hil : i = l.length
      · refine ⟨l[0].node, ?_⟩
        simp [hash_ring_find_node, hlen, hd, hfind, hil, hl0]
      · have hlt : i < l.length := by omega
        refine ⟨l[i].node, ?_⟩
        simp [hash_ring_find_node, hlen, hd, hfind, hil, hlt]
  · intro r v h
    unfold hash_ring_find_next_highest_item at h
    split at h
    · assumption
    · split at h
      · exact absurd h (by simp)
      · cases hf : find_loop r v (r.numItems + 1) 0 ((r.numItems : Int) - 1) with
        | none => rw [hf] at h; exact absurd h (by simp)
        | some item => rw [hf] at h; exact absurd h (by simp)

/-- C9 at `create(3); add "A"; add "B"; remove "A"`: the registry holds `B`, and
the key `x` is routed to a node. -/
theorem C9_find_node_returns_node_witness :
    ∃ ring, run_from_create length_sum_digest insertion_sorter 3
        [Op.add (some [65]), Op.add (some [66]), Op.remove (some [65])] = some ring ∧
      ring.nodes ≠ [] ∧
      ∃ node, hash_ring_find_node length_sum_digest ring (some [120]) = some (some node) :=
  ⟨_, rfl, by decide,
   (C9_find_node_returns_node length_sum_digest insertion_sorter length_sum_digest_total
     insertion_sorter_spec 3 [Op.add (some [65]), Op.add (some [66]), Op.remove (some [65])]
     _ rfl (by decide) (by decide) [120] (by decide)).1⟩


/-! ## Removal leaves the position table as it is -/

/-- C3: `create(1); add "A"; remove "A"` leaves one slot, `numItems = 1` and
`numNodes = 0`. The next `add "B"` resizes the array to `numNodes * numReplicas = 1`
slot, overwrites slot 0 and sets `numItems = 2`; the sorter is then called on
`items[0..2)`, one slot past the allocation, so the call has no defined result
and no sorted table. -/
theorem C3_readd_after_remove_faults :
    run_from_create length_sum_digest insertion_sorter 1
        [Op.add (some [65]), Op.remove (some [65])]
      = some { numReplicas := 1, nodes := [], numNodes := 0,
               items := [some { node := { key := [65] }, number := 8589934705 }],
               numItems := 1 } ∧
    hash_ring_add_items length_sum_digest
        { numReplicas := 1, nodes := [{ key := [66] }], numNodes := 1,
          items := [some { node := { key := [65] }, number := 8589934705 }],
          numItems := 1 } { key := [66] }
      = some (HASH_RING_OK,
          { numReplicas := 1, nodes := [{ key := [66] }], numNodes := 1,
            items := [some { node := { key := [66] }, number := 8589934706 }],
            numItems := 2 }) ∧
    run_from_create length_sum_digest insertion_sorter 1
        [Op.add (some [65]), Op.remove (some [65]), Op.add (some [66])] = none := by
  decide

/-- C4: `create(1); add "A"; remove "A"` ends with `numNodes = 0` and
`numItems = 1`: `hash_ring_remove_node` decrements `numNodes` only, so
`numItems = numReplicas * numNodes` fails. -/
theorem C4_replica_count_broken_by_remove :
    ∃ ring, run_from_create length_sum_digest insertion_sorter 1
        [Op.add (some [65]), Op.remove (some [65])] = some ring ∧
      ring.numReplicas = 1 ∧ ring.nodes = [] ∧ ring.numNodes = 0 ∧ ring.numItems = 1 ∧
      ring.numItems ≠ ring.numReplicas * ring.numNodes :=
  ⟨{ numReplicas := 1, nodes := [], numNodes := 0,
     items := [some { node := { key := [65] }, number := 8589934705 }], numItems := 1 },
   by decide, rfl, rfl, rfl, rfl, by decide⟩

/-- C5: `create(3); add "A"; add "B"; remove "A"` returns `HASH_RING_OK` for the
removal and leaves the table of `ring_AB` as it was: `numItems` is still 6 and
three of the six entries are owned by `A`, which is no longer in the registry. -/
theorem C5_remove_keeps_entries :
    run_from_create length_sum_digest insertion_sorter 3
        [Op.add (some [65]), Op.add (some [66])] = some ring_AB ∧
    hash_ring_remove_node ring_AB (some [65]) = (HASH_RING_OK, ring_AB_removed_A) ∧
    ring_AB_removed_A.nodes = [{ key := [66] }] ∧
    ring_AB_removed_A.numItems = 6 ∧
    table ring_AB_removed_A = table ring_AB ∧
    (table ring_AB_removed_A).map
        (fun l => (l.filter (fun item => item.node = { key := [65] })).length) = some 3 := by
  decide

/-- C8: after `create(1); add "A"; remove "A"` the registry is empty, and
`hash_ring_find_node` on the key `x` returns the removed node `A`, not `NULL`. -/
theorem C8_find_node_after_removing_all :
    ∃ ring, run_from_create length_sum_digest insertion_sorter 1
        [Op.add (some [65]), Op.remove (some [65])] = some ring ∧
      ring.nodes = [] ∧ ring.numNodes = 0 ∧
      hash_ring_find_node length_sum_digest ring (some [120]) = some (some { key := [65] }) :=
  ⟨{ numReplicas := 1, nodes := [], numNodes := 0,
     items := [some { node := { key := [65] }, number := 8589934705 }], numItems := 1 },
   by decide, rfl, rfl, by decide⟩

/-- C10: in the ring left by `create(2); add "A"; remove "A"`, `add "B"` with a
digest that fails at replica index 1 returns `HASH_RING_ERR`; registry, `numNodes`
and `numItems = 2` are as before, but the entry at table index 0 is now the replica
0 of `B`. -/
theorem C10_failed_add_overwrites_entry :
    run_from_create failing_digest insertion_sorter 2
        [Op.add (some [65]), Op.remove (some [65])]
      = some { numReplicas := 2, nodes := [], numNodes := 0,
               items := [some { node := { key := [65] }, number := 8589934705 },
                         some { node := { key := [65] }, number := 8589934706 }],
               numItems := 2 } ∧
    hash_ring_add_node failing_digest insertion_sorter
        { numReplicas := 2, nodes := [], numNodes := 0,
          items := [some { node := { key := [65] }, number := 8589934705 },
                    some { node := { key := [65] }, number := 8589934706 }],
          numItems := 2 } (some [66])
      = some (HASH_RING_ERR,
          { numReplicas := 2, nodes := [], numNodes := 0,
            items := [some { node := { key := [66] }, number := 8589934706 },
                      some { node := { key := [65] }, number := 8589934706 }],
            numItems := 2 }) := by
  decide



/-! ## Registry lookup, removal of an unknown key, creation -/

theorem unlink_node_none {k : List Nat} {nodes : List hash_ring_node_t}
    (h : ∀ n ∈ nodes, n.key ≠ k) : unlink_node k nodes = none := by
  induction nodes with
  | nil => rfl
  | cons n rest ih =>
    have hn : key_matches k n = false := by
      cases hm : key_matches k n with
      | false => rfl
      | true => exact absurd ((key_matches_iff k n).mp hm) (h n (List.mem_cons_self _ _))
    have hrest := ih (fun m hm => h m (List.mem_cons_of_mem _ hm))
    simp [unlink_node, hn, hrest]

/-- C14 (unique keys): in every ring reached from `hash_ring_create` by a sequence
of add and remove calls, whatever they returned, two different positions of the
registry never hold keys of the same length with the same bytes. -/
theorem C14_unique_keys (sha1 : SHA1) (sorter : Sorter) (numReplicas : Nat) (ops : List Op)
    (ring : hash_ring_t)
    (hreach : run_from_create sha1 sorter numReplicas ops = some ring) :
    ∀ (i j : Nat) (hi : i < ring.nodes.length) (hj : j < ring.nodes.length), i ≠ j →
      ¬ (ring.nodes[i].keyLen = ring.nodes[j].keyLen ∧ ring.nodes[i].key = ring.nodes[j].key) := by
  obtain ⟨_, _, hnd⟩ := reachable_registry hreach
  intro i j hi hj hij hsame
  have heq : ring.nodes[i] = ring.nodes[j] := by
    have h2 := hsame.2
    generalize ring.nodes[i] = a at h2
    generalize ring.nodes[j] = b at h2
    cases a; cases b
    simp only at h2
    rw [h2]
  exact hij ((List.Nodup.getElem_inj_iff hnd).mp heq)

/-- C14 at `create(3); add "A"; add "B"; add "A"; remove "C"`: the registry is
`B, A` and its two keys differ. -/
theorem C14_unique_keys_witness :
    ∃ ring, run_from_create length_sum_digest insertion_sorter 3
        [Op.add (some [65]), Op.add (some [66]), Op.add (some [65]), Op.remove (some [67])]
        = some ring ∧
      ring.nodes = [{ key := [66] }, { key := [65] }] ∧
      ∀ (i j : Nat) (hi : i < ring.nodes.length) (hj : j < ring.nodes.length), i ≠ j →
        ¬ (ring.nodes[i].keyLen = ring.nodes[j].keyLen ∧ ring.nodes[i].key = ring.nodes[j].key) :=
  ⟨ring_AB, by decide, rfl,
   C14_unique_keys length_sum_digest insertion_sorter 3
     [Op.add (some [65]), Op.add (some [66]), Op.add (some [65]), Op.remove (some [67])]
     ring_AB (by decide)⟩

/-- C15: for a non-empty key that no node of the registry has (same length, same
bytes), `hash_ring_remove_node` returns `HASH_RING_ERR` and the ring after the call
is the ring before it. -/
theorem C15_remove_unknown_key (ring : hash_ring_t) (key : List Nat) (hk : key ≠ [])
    (hno : ∀ n ∈ ring.nodes, ¬ (n.keyLen = key.length ∧ n.key = key)) :
    hash_ring_remove_node ring (some key) = (HASH_RING_ERR, ring) := by
  have hlen : ¬ key.length ≤ 0 := by
    have := List.length_pos.mpr hk
    omega
  have hnone : unlink_node key ring.nodes = none :=
    unlink_node_none (fun n hn hc => hno n hn ⟨by rw [hash_ring_node_t.keyLen, hc], hc⟩)
  simp [hash_ring_remove_node, hlen, hnone]

/-- C15 at `ring_AB`: removing the unregistered key `C` fails and changes nothing. -/
theorem C15_remove_unknown_key_witness :
    hash_ring_remove_node ring_AB (some [67]) = (HASH_RING_ERR, ring_AB) :=
  C15_remove_unknown_key ring_AB [67] (by decide) (by decide)

/-- C16: `hash_ring_create(numReplicas)` returns `NULL` exactly when
`numReplicas < 1`; for `numReplicas ≥ 1` it returns the ring with that
`numReplicas`, an empty registry, `numNodes = 0`, no array and `numItems = 0`. -/
theorem C16_create (numReplicas : Nat) :
    (hash_ring_create numReplicas = none ↔ numReplicas < 1) ∧
    (1 ≤ numReplicas → hash_ring_create numReplicas
      = some { numReplicas := numReplicas, nodes := [], numNodes := 0, items := [],
               numItems := 0 }) := by
  unfold hash_ring_create
  constructor
  · constructor
    · intro h
      by_contra hc
      rw [if_neg (by omega)] at h
      exact absurd h (by simp)
    · intro h
      rw [if_pos (by omega)]
  · intro h
    rw [if_neg (by omega)]

/-- C16 at `numReplicas = 3` (an empty ring) and at `numReplicas = 0` (`NULL`). -/
theorem C16_create_witness :
    hash_ring_create 3
      = some { numReplicas := 3, nodes := [], numNodes := 0, items := [], numItems := 0 } ∧
    hash_ring_create 0 = none :=
  ⟨(C16_create 3).2 (by decide), (C16_create 0).1.mpr (by decide)⟩

/-- C20 (registry lookup): for a non-empty key, `hash_ring_get_node` returns a
node exactly when the registry holds a node whose key has the same length and the
same bytes, and a node it returns is in the registry and has that key; for an
empty key and for a `NULL` key it returns no node. -/
theorem C20_get_node (ring : hash_ring_t) :
    (∀ key : List Nat, key ≠ [] →
      (((hash_ring_get_node ring (some key)).isSome = true ↔
          ∃ n ∈ ring.nodes, n.keyLen = key.length ∧ n.key = key) ∧
       (∀ node, hash_ring_get_node ring (some key) = some node →
          node ∈ ring.nodes ∧ node.keyLen = key.length ∧ node.key = key))) ∧
    hash_ring_get_node ring (some []) = none ∧
    hash_ring_get_node ring none = none := by
  refine ⟨?_, by simp [hash_ring_get_node], rfl⟩
  intro key hk
  have hlen : ¬ key.length ≤ 0 := by
    have := List.length_pos.mpr hk
    omega
  constructor
  · rw [get_node_isSome_iff ring key hk]
    constructor
    · rintro ⟨n, hn, hkey⟩
      exact ⟨n, hn, by rw [hash_ring_node_t.keyLen, hkey], hkey⟩
    · rintro ⟨n, hn, _, hkey⟩
      exact ⟨n, hn, hkey⟩
  · intro node hget
    simp only [hash_ring_get_node, if_neg hlen] at hget
    have hmem := List.mem_of_find?_eq_some hget
    have hmatch := List.find?_some hget
    have hkey := (key_matches_iff key node).mp hmatch
    exact ⟨hmem, by rw [hash_ring_node_t.keyLen, hkey], hkey⟩

/-- C20 at `ring_AB`: the key `A` is found, the key `C` is not. -/
theorem C20_get_node_witness :
    hash_ring_get_node ring_AB (some [65]) = some { key := [65] } ∧
    hash_ring_get_node ring_AB (some [67]) = none ∧
    ((hash_ring_get_node ring_AB (some [65])).isSome = true ↔
      ∃ n ∈ ring_AB.nodes, n.keyLen = [65].length ∧ n.key = [65]) :=
  ⟨by decide, by decide, ((C20_get_node ring_AB).1 [65] (by decide)).1⟩


/-! ## Strictly-greater lookup -/

/-- C17, as stated, fails at `sample_ring` with probe 20: the table is sorted and
holds an entry with hash 20, the least hash that is at least 20, but the entry
returned has hash 30. -/
theorem C17_at_or_after_counterexample :
    table sample_ring = some sample_table ∧ SortedByNumber sample_table ∧
    (∃ e ∈ sample_table, 20 ≤ e.number ∧ e.number = 20) ∧
    hash_ring_find_next_highest_item sample_ring 20
      = some (some { node := { key := [67] }, number := 30 }) ∧
    ¬ (∀ item, hash_ring_find_next_highest_item sample_ring 20 = some (some item) →
        ∀ e ∈ sample_table, 20 ≤ e.number → item.number ≤ e.number) := by
  refine ⟨by decide, by unfold SortedByNumber; decide, by decide, by decide, ?_⟩
  intro h
  have h1 := h { node := { key := [67] }, number := 30 } (by decide)
    { node := { key := [66] }, number := 20 } (by decide) (by decide)
  exact absurd h1 (by decide)

/-- C17 as amended (lookup is strictly after): on a non-empty table sorted
non-decreasing by hash (of at most `2 ^ 30` entries), if some entry has a hash
above `v` then `hash_ring_find_next_highest_item` returns an entry whose hash is
the least hash above `v`, so a probe equal to an entry's hash is not answered with
that hash; and if no entry has a hash above `v` it returns the first entry. -/
theorem C17_strictly_after (ring : hash_ring_t) (l : List hash_ring_item_t) (v : Nat)
    (htable : table ring = some l) (hsorted : SortedByNumber l) (hne : l ≠ [])
    (hsize : l.length ≤ 2 ^ 30) :
    ((∃ e ∈ l, v < e.number) →
      ∃ item ∈ l, hash_ring_find_next_highest_item ring v = some (some item) ∧
        v < item.number ∧ item.number ≠ v ∧
        ∀ e ∈ l, v < e.number → item.number ≤ e.number) ∧
    ((∀ e ∈ l, e.number ≤ v) →
      hash_ring_find_next_highest_item ring v = some (some (l.head hne))) := by
  obtain ⟨i, hi, hlow, hhigh, hfind⟩ :=
    find_next_highest_item_boundary htable hsorted hne v hsize
  have hpos : 0 < l.length := List.length_pos.mpr hne
  constructor
  · rintro ⟨e, hel, hev⟩
    obtain ⟨j, hj, rfl⟩ := List.getElem_of_mem hel
    have hil : i < l.length := by
      by_contra hcon
      have := hlow j hj (by omega)
      omega
    have hgt := hhigh i hil (le_refl _)
    refine ⟨l[i], List.getElem_mem _, ?_, hgt, by omega, ?_⟩
    · rw [hfind, if_neg (by omega)]
      simp [hil]
    · intro e2 he2 hv2
      obtain ⟨j2, hj2, rfl⟩ := List.getElem_of_mem he2
      have hij : i ≤ j2 := by
        by_contra hcon
        have := hlow j2 hj2 (by omega)
        omega
      exact sorted_le hsorted hij hil hj2
  · intro hall
    have hhead : l.head hne = l[0] := by
      cases l with
      | nil => exact absurd rfl hne
      | cons a t => rfl
    have hil : i = l.length := by
      by_contra hcon
      have hlt : i < l.length := by omega
      have h1 := hhigh i hlt (le_refl _)
      have h2 := hall l[i] (List.getElem_mem _)
      omega
    rw [hfind, if_pos hil, hhead]
    simp [hpos]

/-- C17 as amended, at `sample_ring`: probe 20 returns the entry with hash 30,
probe 30 wraps to the entry with hash 10. -/
theorem C17_strictly_after_witness :
    (∃ item ∈ sample_table,
      hash_ring_find_next_highest_item sample_ring 20 = some (some item) ∧
      20 < item.number ∧ item.number ≠ 20 ∧
      ∀ e ∈ sample_table, 20 < e.number → item.number ≤ e.number) ∧
    hash_ring_find_next_highest_item sample_ring 30
      = some (some { node := { key := [65] }, number := 10 }) :=
  ⟨(C17_strictly_after sample_ring sample_table 20 (by decide)
      (by unfold SortedByNumber; decide) (by decide) (by decide)).1
      ⟨{ node := { key := [67] }, number := 30 }, by decide, by decide⟩,
   (C17_strictly_after sample_ring sample_table 30 (by decide)
      (by unfold SortedByNumber; decide) (by decide) (by decide)).2 (by decide)⟩


/-! ## Termination and bounds of the binary search -/

/-- On any table of at most `2 ^ 30` entries, sorted or not, the loop started with
`min = lo`, `max = hi - 1` (`lo ≤ hi ≤ numItems`) returns from an exit index between
`lo` and `hi`. -/
theorem find_loop_exit {ring : hash_ring_t} {l : List hash_ring_item_t}
    (h : table ring = some l) (v : Nat) (hsize : l.length ≤ 2 ^ 30) :
    ∀ (fuel lo hi : Nat), lo ≤ hi → hi ≤ l.length → hi - lo < fuel →
      ∃ i, lo ≤ i ∧ i ≤ hi ∧
        find_loop ring v fuel (lo : Int) ((hi : Int) - 1)
          = if i = ring.numItems then read_item ring.items 0
            else read_item ring.items (i : Int) := by
  intro fuel
  induction fuel with
  | zero => intro lo hi _ _ hf; omega
  | succ fuel ih =>
    intro lo hi hlohi hhi hf
    rcases Nat.eq_or_lt_of_le hlohi with heq | hlt
    · subst heq
      refine ⟨lo, le_refl _, le_refl _, ?_⟩
      have hgt : (lo : Int) > (lo : Int) - 1 := by omega
      simp only [find_loop, if_pos hgt, Nat.cast_inj]
    · have hngt : ¬ ((lo : Int) > (hi : Int) - 1) := by omega
      have hnov : ¬ ((lo : Int) + ((hi : Int) - 1) > INT_MAX) := by
        unfold INT_MAX
        have : (hi : Int) ≤ 2 ^ 30 := by exact_mod_cast le_trans hhi hsize
        norm_num at this
        omega
      have hmid : ((lo : Int) + ((hi : Int) - 1)).tdiv 2 = (((lo + hi - 1) / 2 : Nat) : Int) := by
        rw [Int.tdiv_eq_ediv (by omega) (by decide)]
        omega
      have hm1 : lo ≤ (lo + hi - 1) / 2 := by omega
      have hm2 : (lo + hi - 1) / 2 < hi := by omega
      have hml : (lo + hi - 1) / 2 < l.length := by omega
      have hread := read_item_table h ((lo + hi - 1) / 2) hml
      simp only [find_loop, if_neg hngt, if_neg hnov, hmid, hread]
      by_cases hcmp : l[(lo + hi - 1) / 2].number > v
      · simp only [if_pos hcmp]
        obtain ⟨i, hi1, hi2, hres⟩ := ih lo ((lo + hi - 1) / 2) hm1 (by omega) (by omega)
        exact ⟨i, hi1, by omega, by simpa using hres⟩
      · have hle : l[(lo + hi - 1) / 2].number ≤ v := by omega
        simp only [if_neg hcmp, if_pos hle]
        obtain ⟨i, hi1, hi2, hres⟩ := ih ((lo + hi - 1) / 2 + 1) hi (by omega) hhi (by omega)
        exact ⟨i, by omega, hi2, by simpa using hres⟩

/-- The states of the loop on any table of at most `2 ^ 30` entries: `max - min`
decreases from each iteration to the next, every state that reads a midpoint
reads inside the table without `int` overflow, and the last state is an exit
state with `0 ≤ min ≤ numItems`. -/
theorem find_trace_spec {ring : hash_ring_t} {l : List hash_ring_item_t}
    (h : table ring = some l) (v : Nat) (hsize : l.length ≤ 2 ^ 30) :
    ∀ (fuel lo hi : Nat), lo ≤ hi → hi ≤ l.length → hi - lo < fuel →
      (find_trace ring v fuel (lo : Int) ((hi : Int) - 1)).head?
        = some ((lo : Int), (hi : Int) - 1) ∧
      List.Chain' (fun s t : Int × Int => t.2 - t.1 < s.2 - s.1)
        (find_trace ring v fuel (lo : Int) ((hi : Int) - 1)) ∧
      (∀ s ∈ find_trace ring v fuel (lo : Int) ((hi : Int) - 1),
        0 ≤ s.1 ∧ s.2 < (l.length : Int) ∧
        (s.1 ≤ s.2 → s.1 + s.2 ≤ INT_MAX ∧ 0 ≤ (s.1 + s.2).tdiv 2 ∧
          (s.1 + s.2).tdiv 2 < (l.length : Int))) ∧
      (∃ s, (find_trace ring v fuel (lo : Int) ((hi : Int) - 1)).getLast? = some s ∧
        s.1 > s.2 ∧ 0 ≤ s.1 ∧ s.1 ≤ (l.length : Int)) := by
  intro fuel
  induction fuel with
  | zero => intro lo hi _ _ hf; omega
  | succ fuel ih =>
    intro lo hi hlohi hhi hf
    rcases Nat.eq_or_lt_of_le hlohi with heq | hlt
    · subst heq
      have hgt : (lo : Int) > (lo : Int) - 1 := by omega
      simp only [find_trace, if_pos hgt, List.head?_cons, List.chain'_singleton,
        List.mem_singleton, List.getLast?_singleton, true_and]
      refine ⟨?_, ⟨((lo : Int), (lo : Int) - 1), rfl, ?_⟩⟩
      · rintro s rfl
        simp only
        refine ⟨by omega, by omega, fun hc => ?_⟩
        omega
      · simp only
        omega
    · have hngt : ¬ ((lo : Int) > (hi : Int) - 1) := by omega
      have hov : (lo : Int) + ((hi : Int) - 1) ≤ INT_MAX := by
        unfold INT_MAX
        have : (hi : Int) ≤ 2 ^ 30 := by exact_mod_cast le_trans hhi hsize
        norm_num at this
        omega
      have hnov : ¬ ((lo : Int) + ((hi : Int) - 1) > INT_MAX) := by omega
      have hmid : ((lo : Int) + ((hi : Int) - 1)).tdiv 2 = (((lo + hi - 1) / 2 : Nat) : Int) := by
        rw [Int.tdiv_eq_ediv (by omega) (by decide)]
        omega
      have hm1 : lo ≤ (lo + hi - 1) / 2 := by omega
      have hm2 : (lo + hi - 1) / 2 < hi := by omega
      have hml : (lo + hi - 1) / 2 < l.length := by omega
      have hread := read_item_table h ((lo + hi - 1) / 2) hml
      have hhead : ∀ s : Int × Int, s = ((lo : Int), (hi : Int) - 1) →
          0 ≤ s.1 ∧ s.2 < (l.length : Int) ∧
          (s.1 ≤ s.2 → s.1 + s.2 ≤ INT_MAX ∧ 0 ≤ (s.1 + s.2).tdiv 2 ∧
            (s.1 + s.2).tdiv 2 < (l.length : Int)) := by
        rintro s rfl
        simp only
        refine ⟨by omega, by omega, fun _ => ⟨hov, ?_, ?_⟩⟩
        · rw [hmid]; omega
        · rw [hmid]; omega
      have hcombine : ∀ (lo1 hi1 : Nat), (hi1 : Int) - 1 - (lo1 : Int) < (hi : Int) - 1 - (lo : Int) →
          ((find_trace ring v fuel (lo1 : Int) ((hi1 : Int) - 1)).head?
              = some ((lo1 : Int), (hi1 : Int) - 1) ∧
            List.Chain' (fun s t : Int × Int => t.2 - t.1 < s.2 - s.1)
              (find_trace ring v fuel (lo1 : Int) ((hi1 : Int) - 1)) ∧
            (∀ s ∈ find_trace ring v fuel (lo1 : Int) ((hi1 : Int) - 1),
              0 ≤ s.1 ∧ s.2 < (l.length : Int) ∧
              (s.1 ≤ s.2 → s.1 + s.2 ≤ INT_MAX ∧ 0 ≤ (s.1 + s.2).tdiv 2 ∧
                (s.1 + s.2).tdiv 2 < (l.length : Int))) ∧
            (∃ s, (find_trace ring v fuel (lo1 : Int) ((hi1 : Int) - 1)).getLast? = some s ∧
              s.1 > s.2 ∧ 0 ≤ s.1 ∧ s.1 ≤ (l.length : Int))) →
          ((((lo : Int), (hi : Int) - 1) ::
              find_trace ring v fuel (lo1 : Int) ((hi1 : Int) - 1)).head?
              = some ((lo : Int), (hi : Int) - 1) ∧
            List.Chain' (fun s t : Int × Int => t.2 - t.1 < s.2 - s.1)
              (((lo : Int), (hi : Int) - 1) ::
                find_trace ring v fuel (lo1 : Int) ((hi1 : Int) - 1)) ∧
            (∀ s ∈ ((lo : Int), (hi : Int) - 1) ::
                find_trace ring v fuel (lo1 : Int) ((hi1 : Int) - 1),
              0 ≤ s.1 ∧ s.2 < (l.length : Int) ∧
              (s.1 ≤ s.2 → s.1 + s.2 ≤ INT_MAX ∧ 0 ≤ (s.1 + s.2).tdiv 2 ∧
                (s.1 + s.2).tdiv 2 < (l.length : Int))) ∧
            (∃ s, (((lo : Int), (hi : Int) - 1) ::
                find_trace ring v fuel (lo1 : Int) ((hi1 : Int) - 1)).getLast? = some s ∧
              s.1 > s.2 ∧ 0 ≤ s.1 ∧ s.1 ≤ (l.length : Int))) := by
        intro lo1 hi1 hdec ⟨hh, hc, hm, s, hs, hs1, hs2, hs3⟩
        refine ⟨rfl, ?_, ?_, s, ?_, hs1, hs2, hs3⟩
        · rw [List.chain'_cons']
          refine ⟨?_, hc⟩
          intro y hy
          rw [hh] at hy
          simp only [Option.mem_def, Option.some.injEq] at hy
          subst hy
          simpa using hdec
        · intro s1 hs1m
          rcases List.mem_cons.mp hs1m with heq | hin
          · exact hhead s1 heq
          · exact hm s1 hin
        · rw [List.getLast?_cons, hs]
          rfl
      simp only [find_trace, if_neg hngt, if_neg hnov, hmid, hread]
      by_cases hcmp : l[(lo + hi - 1) / 2].number > v
      · simp only [if_pos hcmp]
        exact hcombine lo ((lo + hi - 1) / 2) (by omega)
          (ih lo ((lo + hi - 1) / 2) hm1 (by omega) (by omega))
      · have hle : l[(lo + hi - 1) / 2].number ≤ v := by omega
        simp only [if_neg hcmp, if_pos hle]
        have := hcombine ((lo + hi - 1) / 2 + 1) hi (by push_cast; omega)
          (ih ((lo + hi - 1) / 2 + 1) hi (by omega) hhi (by omega))
        simpa using this


/-- C19 (the binary search is total and in bounds): for every table with
`numItems ≥ 1`, sorted or not, of at most `2 ^ 30` entries (so that `min + max`
stays within `INT_MAX`), and every probe `v`: the loop returns within
`numItems + 1` iterations an entry of the table; from each iteration to the next
`max - min` strictly decreases; every iteration that reads a midpoint has
`0 ≤ mid < numItems`; and the loop is left in a state with `min > max` and
`0 ≤ min ≤ numItems`. -/
theorem C19_binary_search_total (ring : hash_ring_t) (l : List hash_ring_item_t) (v : Nat)
    (htable : table ring = some l) (hne : l ≠ []) (hsize : l.length ≤ 2 ^ 30) :
    (∃ item ∈ l, hash_ring_find_next_highest_item ring v = some (some item)) ∧
    List.Chain' (fun s t : Int × Int => t.2 - t.1 < s.2 - s.1)
      (find_trace ring v (ring.numItems + 1) 0 ((ring.numItems : Int) - 1)) ∧
    (∀ s ∈ find_trace ring v (ring.numItems + 1) 0 ((ring.numItems : Int) - 1),
      s.1 ≤ s.2 → s.1 + s.2 ≤ INT_MAX ∧ 0 ≤ (s.1 + s.2).tdiv 2 ∧
        (s.1 + s.2).tdiv 2 < (ring.numItems : Int)) ∧
    (∃ s, (find_trace ring v (ring.numItems + 1) 0 ((ring.numItems : Int) - 1)).getLast?
        = some s ∧ s.1 > s.2 ∧ 0 ≤ s.1 ∧ s.1 ≤ (ring.numItems : Int)) := by
  have hlen := table_length htable
  have hpos : 0 < l.length := List.length_pos.mpr hne
  have h0 : ¬ ring.numItems = 0 := by omega
  have hmax : ¬ ((ring.numItems : Int) - 1 > INT_MAX) := by
    unfold INT_MAX
    have : (ring.numItems : Int) ≤ 2 ^ 30 := by exact_mod_cast hlen ▸ hsize
    norm_num at this
    omega
  refine ⟨?_, ?_⟩
  · obtain ⟨i, _, hi, hfind⟩ :=
      find_loop_exit htable v hsize (ring.numItems + 1) 0 l.length (Nat.zero_le _) (le_refl _)
        (by omega)
    have hfind2 : find_loop ring v (ring.numItems + 1) 0 ((ring.numItems : Int) - 1)
        = if i = ring.numItems then read_item ring.items 0
          else read_item ring.items (i : Int) := by
      rw [hlen] at hfind; simpa using hfind
    have hr0 : read_item ring.items 0 = some l[0] := by
      have := read_item_table htable 0 hpos
      simpa using this
    unfold hash_ring_find_next_highest_item
    rw [if_neg h0, if_neg hmax, hfind2]
    by_cases hin : i = ring.numItems
    · exact ⟨l[0], List.getElem_mem _, by rw [if_pos hin, hr0]; rfl⟩
    · have hil : i < l.length := by omega
      exact ⟨l[i], List.getElem_mem _, by rw [if_neg hin, read_item_table htable i hil]; rfl⟩
  · obtain ⟨_, hchain, hmem, hlast⟩ :=
      find_trace_spec htable v hsize (ring.numItems + 1) 0 l.length (Nat.zero_le _) (le_refl _)
        (by omega)
    rw [hlen] at hchain hmem hlast
    simp only [Nat.cast_zero] at hchain hmem hlast
    exact ⟨hchain, fun s hs hle => (hmem s hs).2.2 hle, hlast⟩

/-- C19 at `unsorted_ring` with probe 15: the loop visits `(0, 2)`, `(2, 2)`,
`(2, 1)` and returns the entry at index 2. -/
theorem C19_binary_search_total_witness :
    table unsorted_ring = some unsorted_table ∧
    find_trace unsorted_ring 15 (unsorted_ring.numItems + 1) 0
        ((unsorted_ring.numItems : Int) - 1) = [(0, 2), (2, 2), (2, 1)] ∧
    hash_ring_find_next_highest_item unsorted_ring 15
      = some (some { node := { key := [67] }, number := 20 }) ∧
    (∃ item ∈ unsorted_table,
      hash_ring_find_next_highest_item unsorted_ring 15 = some (some item)) :=
  ⟨by decide, by decide, by decide,
   (C19_binary_search_total unsorted_ring unsorted_table 15 (by decide) (by decide)
     (by decide)).1⟩


/-! ## What `hash_ring_add_items` writes -/

theorem take_set_self (items : List (Option hash_ring_item_t)) (k : Nat)
    (a : Option hash_ring_item_t) : (items.set k a).take k = items.take k := by
  rw [List.set_eq_take_append_cons_drop]
  split
  · rename_i hk
    exact List.take_left' (by rw [List.length_take]; omega)
  · rfl

/-- The loop never writes below its first index. -/
theorem add_items_loop_take (sha1 : SHA1) (node : hash_ring_node_t) (numNodes numReplicas : Nat) :
    ∀ (n x : Nat) (items items1 : List (Option hash_ring_item_t)) (rc : ReturnCode),
      add_items_loop sha1 node numNodes numReplicas n x items = some (rc, items1) →
      items1.take ((numNodes - 1) * numReplicas + x)
        = items.take ((numNodes - 1) * numReplicas + x) := by
  intro n
  induction n with
  | zero =>
    intro x items items1 rc h
    simp only [add_items_loop, Option.some.injEq, Prod.mk.injEq] at h
    rw [h.2]
  | succ n ih =>
    intro x items items1 rc h
    unfold add_items_loop at h
    split at h
    · exact absurd h (by simp)
    · split at h
      · simp only [Option.some.injEq, Prod.mk.injEq] at h
        rw [h.2]
      · simp only at h
        split at h
        · have h1 := ih _ _ _ _ h
          have h2 := congrArg (List.take ((numNodes - 1) * numReplicas + x)) h1
          rw [List.take_take, List.take_take] at h2
          have hmin : min ((numNodes - 1) * numReplicas + x) ((numNodes - 1) * numReplicas + (x + 1))
              = (numNodes - 1) * numReplicas + x := by omega
          rw [hmin, take_set_self] at h2
          exact h2
        · exact absurd h (by simp)

/-- A loop that ends with `HASH_RING_OK` after `n` iterations from index `x` has
replaced the `n` slots from `(numNodes - 1) * numReplicas + x` on by entries owned
by `node` and has left every other slot as it was. -/
theorem add_items_loop_written (sha1 : SHA1) (node : hash_ring_node_t)
    (numNodes numReplicas : Nat) :
    ∀ (n x : Nat) (items items1 : List (Option hash_ring_item_t)),
      (numNodes - 1) * numReplicas + x + n ≤ items.length →
      add_items_loop sha1 node numNodes numReplicas n x items = some (HASH_RING_OK, items1) →
      ∃ news : List hash_ring_item_t, news.length = n ∧ (∀ it ∈ news, it.node = node) ∧
        items1 = items.take ((numNodes - 1) * numReplicas + x) ++ news.map some
          ++ items.drop ((numNodes - 1) * numReplicas + x + n) := by
  intro n
  induction n with
  | zero =>
    intro x items items1 _ h
    simp only [add_items_loop, Option.some.injEq, Prod.mk.injEq, true_and] at h
    refine ⟨[], rfl, fun it hit => absurd hit (List.not_mem_nil it), ?_⟩
    rw [← h]
    simp
  | succ n ih =>
    intro x items items1 hlen h
    unfold add_items_loop at h
    split at h
    · exact absurd h (by simp)
    · split at h
      · exact absurd h (by simp)
      · rename_i ctx _
        simp only at h
        obtain ⟨it0, hit0⟩ : ∃ it0 : hash_ring_item_t,
            it0 = { node := node, number := digest_number ctx } := ⟨_, rfl⟩
        rw [← hit0] at h
        split at h
        · rename_i hidx
          have hlen2 : (numNodes - 1) * numReplicas + (x + 1) + n
              ≤ (items.set ((numNodes - 1) * numReplicas + x) (some it0)).length := by
            rw [List.length_set]; omega
          obtain ⟨news, hn, hown, heq⟩ := ih _ _ _ hlen2 h
          refine ⟨it0 :: news, by simp [hn], ?_, ?_⟩
          · intro it hit
            rcases List.mem_cons.mp hit with rfl | hin
            · rw [hit0]
            · exact hown it hin
          · rw [heq]
            have hdrop : List.drop ((numNodes - 1) * numReplicas + (x + 1) + n)
                (items.set ((numNodes - 1) * numReplicas + x) (some it0))
                = List.drop ((numNodes - 1) * numReplicas + x + (n + 1)) items := by
              rw [List.drop_set_of_lt _ _ (by omega)]
              congr 1
              omega
            have htake : List.take ((numNodes - 1) * numReplicas + (x + 1))
                (items.set ((numNodes - 1) * numReplicas + x) (some it0))
                = List.take ((numNodes - 1) * numReplicas + x) items ++ [some it0] := by
              rw [List.set_eq_take_append_cons_drop, if_pos hidx]
              have hl : (List.take ((numNodes - 1) * numReplicas + x) items ++ [some it0]).length
                  = (numNodes - 1) * numReplicas + (x + 1) := by
                simp only [List.length_append, List.length_take, List.length_singleton]
                omega
              have happ : List.take ((numNodes - 1) * numReplicas + x) items
                  ++ some it0 :: List.drop ((numNodes - 1) * numReplicas + x + 1) items
                  = (List.take ((numNodes - 1) * numReplicas + x) items ++ [some it0])
                    ++ List.drop ((numNodes - 1) * numReplicas + x + 1) items := by
                simp
              rw [happ]
              exact List.take_left' hl
            rw [hdrop, htake]
            simp
        · exact absurd h (by simp)

theorem realloc_take {items : List (Option hash_ring_item_t)} {k n : Nat}
    (hk : k ≤ n) (hlen : k ≤ items.length) : (realloc items n).take k = items.take k := by
  unfold realloc
  rw [List.take_append_of_le_length (by rw [List.length_take]; omega), List.take_take]
  congr 1
  omega

/-- `hash_ring_add_items` on a ring whose table `l` fills `items[0..numItems)` with
`numItems + numReplicas = numNodes * numReplicas`: the table part of the array is
kept, and on `HASH_RING_OK` the array is the old table followed by `numReplicas`
entries owned by `node`. -/
theorem add_items_append {sha1 : SHA1} {ring ring2 : hash_ring_t} {node : hash_ring_node_t}
    {rc : ReturnCode} {l : List hash_ring_item_t} (htable : table ring = some l)
    (hnum : ring.numItems + ring.numReplicas = ring.numNodes * ring.numReplicas)
    (h : hash_ring_add_items sha1 ring node = some (rc, ring2)) :
    ring2.items.take ring.numItems = l.map some ∧
    (rc = HASH_RING_OK →
      ∃ news : List hash_ring_item_t, news.length = ring.numReplicas ∧
        (∀ it ∈ news, it.node = node) ∧ ring2.items = (l ++ news).map some) := by
  obtain ⟨hcap, htake⟩ := table_take htable
  have hnz : 1 ≤ ring.numNodes ∨ ring.numReplicas = 0 := by
    rcases Nat.eq_zero_or_pos ring.numNodes with h0 | hp
    · right
      rw [h0] at hnum
      omega
    · left; exact hp
  have hbase : (ring.numNodes - 1) * ring.numReplicas = ring.numItems := by
    rcases hnz with h1 | h0
    · have : ring.numNodes * ring.numReplicas
          = (ring.numNodes - 1) * ring.numReplicas + ring.numReplicas := by
        conv_lhs => rw [show ring.numNodes = (ring.numNodes - 1) + 1 by omega]
        ring
      omega
    · rw [h0] at hnum ⊢
      simp at hnum ⊢
      exact hnum.symm
  have hr0 : (realloc ring.items (ring.numNodes * ring.numReplicas)).take ring.numItems
      = l.map some := by
    rw [realloc_take (by omega) hcap, htake]
  unfold hash_ring_add_items at h
  simp only at h
  split at h
  · exact absurd h (by simp)
  · rename_i items hl
    have ht := add_items_loop_take _ _ _ _ _ _ _ _ _ hl
    rw [hbase, Nat.add_zero, hr0] at ht
    simp only [Option.some.injEq, Prod.mk.injEq] at h
    obtain ⟨rfl, rfl⟩ := h
    exact ⟨ht, fun hc => absurd hc (by simp)⟩
  · rename_i items hl
    have ht := add_items_loop_take _ _ _ _ _ _ _ _ _ hl
    rw [hbase, Nat.add_zero, hr0] at ht
    simp only [Option.some.injEq, Prod.mk.injEq] at h
    obtain ⟨rfl, rfl⟩ := h
    refine ⟨ht, fun _ => ?_⟩
    obtain ⟨news, hn, hown, heq⟩ := add_items_loop_written _ _ _ _ _ _ _ _
      (by rw [realloc_length, hbase]; omega) hl
    refine ⟨news, hn, hown, ?_⟩
    simp only
    rw [heq, hbase, Nat.add_zero, hr0,
      List.drop_eq_nil_of_le (by rw [realloc_length]; omega)]
    simp


/-- `hash_ring_add_node` on a ring never removed from (`numItems = numNodes *
numReplicas`, table `l`): either the call returns `HASH_RING_ERR` and registry,
counters and table are as before, or it returns `HASH_RING_OK`, the key is new, the
node is linked at the head and the table is the sorter's output on `l` followed by
`numReplicas` entries owned by the new node. -/
theorem add_node_add_only {sha1 : SHA1} {sorter : Sorter} (hsort : SorterSpec sorter)
    {ring ring3 : hash_ring_t} {key : Option (List Nat)} {rc : ReturnCode}
    {l : List hash_ring_item_t}
    (hnum : ring.numItems = ring.numNodes * ring.numReplicas) (htable : table ring = some l)
    (h : hash_ring_add_node sha1 sorter ring key = some (rc, ring3)) :
    (rc = HASH_RING_ERR ∧ ring3.nodes = ring.nodes ∧ ring3.numNodes = ring.numNodes ∧
      ring3.numReplicas = ring.numReplicas ∧ ring3.numItems = ring.numItems ∧
      table ring3 = some l) ∨
    (∃ (k : List Nat) (news : List hash_ring_item_t), key = some k ∧ k ≠ [] ∧
      (∀ n ∈ ring.nodes, n.key ≠ k) ∧ rc = HASH_RING_OK ∧
      ring3.nodes = { key := k } :: ring.nodes ∧ ring3.numNodes = ring.numNodes + 1 ∧
      ring3.numReplicas = ring.numReplicas ∧
      ring3.numItems = ring.numItems + ring.numReplicas ∧
      news.length = ring.numReplicas ∧ (∀ it ∈ news, it.node = { key := k }) ∧
      table ring3 = some (sorter item_sort (l ++ news))) := by
  have hmul : (ring.numNodes + 1) * ring.numReplicas
      = ring.numNodes * ring.numReplicas + ring.numReplicas := by ring
  have hl := table_length htable
  rcases add_node_cases h with ⟨hrc, rfl⟩ | ⟨k, ring2, _, _, _, hadd, hrc, rfl⟩ |
    ⟨k, ring2, l2, hkey, hk, hfresh, hadd, htable2, hrc, rfl⟩
  · left
    exact ⟨hrc, rfl, rfl, rfl, rfl, htable⟩
  · left
    have htable1 : table ({ ring with
        nodes := ({ key := k } : hash_ring_node_t) :: ring.nodes,
        numNodes := ring.numNodes + 1 } : hash_ring_t) = some l := htable
    obtain ⟨htake, _⟩ := add_items_append htable1 (by simp only; omega) hadd
    obtain ⟨_, _, hr2, hlen2, hni2⟩ := add_items_spec hadd
    simp only [hrc, if_neg] at hr2 hlen2 hni2 htake
    have hni3 : ring2.numItems = ring.numItems := by simpa using hni2
    refine ⟨hrc, rfl, rfl, hr2, hni3, ?_⟩
    unfold table
    simp only [hni3]
    rw [if_pos (by omega), htake]
    exact readAll_map_some l
  · right
    have htable1 : table ({ ring with
        nodes := ({ key := k } : hash_ring_node_t) :: ring.nodes,
        numNodes := ring.numNodes + 1 } : hash_ring_t) = some l := htable
    obtain ⟨_, hok⟩ := add_items_append htable1 (by simp only; omega) hadd
    obtain ⟨news, hn, hown, hitems2⟩ := hok rfl
    obtain ⟨hn2, hnn2, hr2, hlen2, hni2⟩ := add_items_spec hadd
    simp only [if_pos] at hn2 hnn2 hr2 hlen2 hni2 hn
    have hlen3 : ring2.numItems = (l ++ news).length := by
      rw [hni2, List.length_append, hn, hl]
    have ht2 := table_of_inv hitems2 hlen3
    rw [htable2] at ht2
    simp only [Option.some.injEq] at ht2
    subst ht2
    obtain ⟨_, hperm⟩ := hsort (l ++ news)
    refine ⟨k, news, hkey, hk, hfresh, hrc, hn2, hnn2, hr2, hni2, hn, hown, ?_⟩
    apply table_of_inv
    · simp only
      rw [List.drop_eq_nil_of_le (by rw [hitems2, List.length_map]; omega)]
      simp
    · simp only [hperm.length_eq]
      exact hlen3


/-! ## Rings built by successful additions only -/

/-- State of a ring after `n` successful additions and no removal. -/
theorem add_all_counts {sha1 : SHA1} {sorter : Sorter} (hsort : SorterSpec sorter) :
    ∀ (keys : List (Option (List Nat))) (ring ring1 : hash_ring_t) (n : Nat)
      (l : List hash_ring_item_t),
      ring.numNodes = n → ring.nodes.length = n →
      ring.numItems = n * ring.numReplicas → ring.nodes.Nodup →
      table ring = some l → (∀ node ∈ ring.nodes, owned_count node l = ring.numReplicas) →
      (∀ it ∈ l, it.node ∈ ring.nodes) →
      add_all sha1 sorter ring keys = some ring1 →
      ring1.numReplicas = ring.numReplicas ∧
      ring1.numNodes = n + keys.length ∧ ring1.nodes.length = n + keys.length ∧
      ring1.numItems = (n + keys.length) * ring.numReplicas ∧ ring1.nodes.Nodup ∧
      ring1.nodes.map (fun nd => some nd.key)
        = keys.reverse ++ ring.nodes.map (fun nd => some nd.key) ∧
      ∃ l1, table ring1 = some l1 ∧
        (∀ node ∈ ring1.nodes, owned_count node l1 = ring.numReplicas) ∧
        (∀ it ∈ l1, it.node ∈ ring1.nodes) := by
  intro keys
  induction keys with
  | nil =>
    intro ring ring1 n l h1 h2 h3 h4 h5 h6 h7 h
    simp only [add_all, Option.some.injEq] at h
    subst h
    exact ⟨rfl, by simpa using h1, by simpa using h2, by simpa using h3, h4, by simp,
      l, h5, h6, h7⟩
  | cons key keys ih =>
    intro ring ring1 n l h1 h2 h3 h4 h5 h6 h7 h
    unfold add_all at h
    split at h
    · rename_i ring2 hadd
      have hnum : ring.numItems = ring.numNodes * ring.numReplicas := by rw [h3, h1]
      rcases add_node_add_only hsort hnum h5 hadd with ⟨hrc, _⟩ |
        ⟨k, news, hkey, hk, hfresh, _, hn2, hnn2, hr2, hni2, hnl, hown, ht2⟩
      · exact absurd hrc (by simp)
      · obtain ⟨_, hperm⟩ := hsort (l ++ news)
        have hnotin : ({ key := k } : hash_ring_node_t) ∉ ring.nodes :=
          fun hmem => hfresh _ hmem rfl
        have hcount : ∀ node ∈ ring2.nodes,
            owned_count node (sorter item_sort (l ++ news)) = ring2.numReplicas := by
          intro node hnode
          unfold owned_count
          rw [hperm.countP_eq, List.countP_append, hr2]
          rw [hn2] at hnode
          rcases List.mem_cons.mp hnode with rfl | hin
          · have hz : List.countP (fun it => decide (it.node = { key := k })) l = 0 := by
              rw [List.countP_eq_zero]
              intro it hit
              simp only [decide_eq_true_eq]
              intro hc
              exact hnotin (hc ▸ h7 it hit)
            have hall : List.countP (fun it => decide (it.node = { key := k })) news
                = news.length := by
              rw [List.countP_eq_length]
              intro it hit
              simp only [decide_eq_true_eq]
              exact hown it hit
            rw [hz, hall, hnl]
            omega
          · have hne : node ≠ { key := k } := fun hc => hnotin (hc ▸ hin)
            have hz : List.countP (fun it => decide (it.node = node)) news = 0 := by
              rw [List.countP_eq_zero]
              intro it hit
              simp only [decide_eq_true_eq]
              intro hc
              exact hne (hc ▸ hown it hit)
            have := h6 node hin
            unfold owned_count at this
            rw [hz, this]
            rfl
        have hmem : ∀ it ∈ sorter item_sort (l ++ news), it.node ∈ ring2.nodes := by
          intro it hit
          rw [hn2]
          rcases List.mem_append.mp (hperm.mem_iff.mp hit) with hl | hnw
          · exact List.mem_cons_of_mem _ (h7 it hl)
          · rw [hown it hnw]
            exact List.mem_cons_self _ _
        have hmul : (n + 1) * ring.numReplicas = n * ring.numReplicas + ring.numReplicas := by
          ring
        obtain ⟨g1, g2, g3, g4, g5, g6, l1, g7, g8, g9⟩ :=
          ih ring2 ring1 (n + 1) (sorter item_sort (l ++ news)) (by rw [hnn2, h1])
            (by rw [hn2, List.length_cons, h2]) (by rw [hni2, hr2, h3, hmul])
            (by rw [hn2]; exact List.nodup_cons.mpr ⟨hnotin, h4⟩) ht2 hcount hmem h
        refine ⟨by rw [g1, hr2], ?_, ?_, ?_, g5, ?_, l1, g7, ?_, g9⟩
        · rw [g2, List.length_cons]; omega
        · rw [g3, List.length_cons]; omega
        · rw [g4, hr2, List.length_cons]
          congr 1
          omega
        · rw [g6, hn2, hkey]
          simp
        · intro node hnode
          rw [g8 node hnode, hr2]
    · exact absurd h (by simp)

/-- C13: in the ring built from a successful `hash_ring_create(R)` (so `R ≥ 1`) by
`n` calls of `hash_ring_add_node` that all return `HASH_RING_OK` (no removal; the
sorter returns a sorted permutation), `numNodes = n`, `numItems = n * R`, the
registry holds the `n` keys, which are pairwise distinct, and every registered node
owns exactly `R` entries of the table. -/
theorem C13_replicas_per_node (sha1 : SHA1) (sorter : Sorter) (hsort : SorterSpec sorter)
    (R : Nat) (keys : List (Option (List Nat))) (ring0 ring : hash_ring_t)
    (hcreate : hash_ring_create R = some ring0)
    (hadds : add_all sha1 sorter ring0 keys = some ring) :
    1 ≤ R ∧ ring.numReplicas = R ∧
    ring.numNodes = keys.length ∧ ring.nodes.length = keys.length ∧
    ring.numItems = keys.length * R ∧ keys.Nodup ∧
    ring.nodes.map (fun nd => some nd.key) = keys.reverse ∧
    ∃ l, table ring = some l ∧ l.length = keys.length * R ∧
      ∀ node ∈ ring.nodes, owned_count node l = R := by
  obtain ⟨hR, rfl⟩ := create_spec hcreate
  have ht0 : table (⟨R, [], 0, [], 0⟩ : hash_ring_t) = some [] := by
    simp [table, readAll]
  obtain ⟨g1, g2, g3, g4, g5, g6, l1, g7, g8, _⟩ :=
    add_all_counts hsort keys (⟨R, [], 0, [], 0⟩ : hash_ring_t) ring 0 [] rfl rfl (by simp)
      List.nodup_nil ht0
      (fun node hnode => absurd hnode (List.not_mem_nil node))
      (fun it hit => absurd hit (List.not_mem_nil it)) hadds
  simp only [Nat.zero_add, List.map_nil, List.append_nil] at g2 g3 g4 g6
  refine ⟨hR, g1, g2, g3, g4, ?_, g6, l1, g7, ?_, g8⟩
  · have hnd : (ring.nodes.map (fun nd => some nd.key)).Nodup := by
      refine List.Nodup.map ?_ g5
      intro a b hab
      cases a; cases b
      simpa using hab
    rw [g6] at hnd
    exact List.nodup_reverse.mp hnd
  · rw [table_length g7, g4]

/-- C13 at `create(3); add "A"; add "B"`: two nodes, six entries, three owned by
each node. -/
theorem C13_replicas_per_node_witness :
    hash_ring_create 3
      = some { numReplicas := 3, nodes := [], numNodes := 0, items := [], numItems := 0 } ∧
    add_all length_sum_digest insertion_sorter
      { numReplicas := 3, nodes := [], numNodes := 0, items := [], numItems := 0 }
      [some [65], some [66]] = some ring_AB ∧
    ring_AB.numNodes = 2 ∧ ring_AB.numItems = 2 * 3 ∧
    (∃ l, table ring_AB = some l ∧ l.length = 2 * 3 ∧
      ∀ node ∈ ring_AB.nodes, owned_count node l = 3) :=
  ⟨by decide, by decide, by decide, by decide,
   (C13_replicas_per_node length_sum_digest insertion_sorter insertion_sorter_spec 3
     [some [65], some [66]]
     { numReplicas := 3, nodes := [], numNodes := 0, items := [], numItems := 0 } ring_AB
     (by decide) (by decide)).2.2.2.2.2.2.2⟩


/-! ## Adding a node moves keys to the new node only -/

/-- On a sorted non-empty table of at most `2 ^ 30` entries the search returns an
entry that answers the probe. -/
theorem find_next_highest_item_answers {ring : hash_ring_t} {l : List hash_ring_item_t}
    (htable : table ring = some l) (hsorted : SortedByNumber l) (hne : l ≠ []) (v : Nat)
    (hsize : l.length ≤ 2 ^ 30) :
    ∃ e, hash_ring_find_next_highest_item ring v = some (some e) ∧ Answers l v e := by
  obtain ⟨i, hi, hlow, hhigh, hfind⟩ :=
    find_next_highest_item_boundary htable hsorted hne v hsize
  have hpos : 0 < l.length := List.length_pos.mpr hne
  by_cases hil : i = l.length
  · refine ⟨l[0], by rw [hfind, if_pos hil]; simp [hpos], List.getElem_mem _, Or.inr ⟨?_, ?_⟩⟩
    · intro x hx
      obtain ⟨j, hj, rfl⟩ := List.getElem_of_mem hx
      exact hlow j hj (by omega)
    · intro x hx
      obtain ⟨j, hj, rfl⟩ := List.getElem_of_mem hx
      exact sorted_le hsorted (Nat.zero_le j) hpos hj
  · have hlt : i < l.length := by omega
    refine ⟨l[i], by rw [hfind, if_neg hil]; simp [hlt], List.getElem_mem _,
      Or.inl ⟨hhigh i hlt (le_refl _), ?_⟩⟩
    intro x hx hvx
    obtain ⟨j, hj, rfl⟩ := List.getElem_of_mem hx
    have hij : i ≤ j := by
      by_contra hcon
      have := hlow j hj (by omega)
      omega
    exact sorted_le hsorted hij hlt hj

/-- With pairwise distinct hashes a probe has at most one answer. -/
theorem answers_unique {l : List hash_ring_item_t} {v : Nat} {a b : hash_ring_item_t}
    (hdistinct : l.Pairwise (fun x y => x.number ≠ y.number))
    (ha : Answers l v a) (hb : Answers l v b) : a = b := by
  obtain ⟨hal, ha2⟩ := ha
  obtain ⟨hbl, hb2⟩ := hb
  have hnum : a.number = b.number := by
    rcases ha2 with ⟨hav, hamin⟩ | ⟨haall, hamin⟩
    · rcases hb2 with ⟨hbv, hbmin⟩ | ⟨hball, _⟩
      · exact le_antisymm (hamin b hbl hbv) (hbmin a hal hav)
      · have := hball a hal
        omega
    · rcases hb2 with ⟨hbv, _⟩ | ⟨_, hbmin⟩
      · have := haall b hbl
        omega
      · exact le_antisymm (hamin b hbl) (hbmin a hal)
  by_contra hne
  have hsymm : Symmetric (fun x y : hash_ring_item_t => x.number ≠ y.number) :=
    fun x y hxy => fun hc => hxy hc.symm
  exact (hdistinct.forall hsymm hal hbl hne) hnum

/-- An answer on a larger table that lies in the smaller table answers there. -/
theorem answers_of_subset {l l1 : List hash_ring_item_t} {v : Nat} {e : hash_ring_item_t}
    (hsub : ∀ x ∈ l, x ∈ l1) (he : e ∈ l) (h : Answers l1 v e) : Answers l v e := by
  obtain ⟨_, h2⟩ := h
  refine ⟨he, ?_⟩
  rcases h2 with ⟨hv, hmin⟩ | ⟨hall, hmin⟩
  · exact Or.inl ⟨hv, fun x hx hvx => hmin x (hsub x hx) hvx⟩
  · exact Or.inr ⟨fun x hx => hall x (hsub x hx), fun x hx => hmin x (hsub x hx)⟩

/-- Rings built from `hash_ring_create` by `hash_ring_add_node` calls only: the
table is defined and sorted and `numItems = numNodes * numReplicas`. -/
theorem run_adds_invariant {sha1 : SHA1} {sorter : Sorter} (hsort : SorterSpec sorter) :
    ∀ (keys : List (Option (List Nat))) (ring ring1 : hash_ring_t),
      1 ≤ ring.numReplicas → ring.numItems = ring.numNodes * ring.numReplicas →
      (∃ l, table ring = some l ∧ SortedByNumber l) →
      run sha1 sorter ring (keys.map Op.add) = some ring1 →
      1 ≤ ring1.numReplicas ∧ ring1.numItems = ring1.numNodes * ring1.numReplicas ∧
      ∃ l, table ring1 = some l ∧ SortedByNumber l := by
  intro keys
  induction keys with
  | nil =>
    intro ring ring1 h1 h2 h3 h
    simp only [List.map_nil, run, Option.some.injEq] at h
    subst h
    exact ⟨h1, h2, h3⟩
  | cons key keys ih =>
    intro ring ring1 h1 h2 h3 h
    obtain ⟨l, htable, hsorted⟩ := h3
    simp only [List.map_cons, run, step] at h
    split at h
    · exact absurd h (by simp)
    · rename_i rc ring2 hadd
      rcases add_node_add_only hsort h2 htable hadd with ⟨_, _, hnn, hr, hni, ht⟩ |
        ⟨k, news, _, _, _, _, _, hnn, hr, hni, _, _, ht⟩
      · exact ih ring2 ring1 (by rw [hr]; exact h1) (by rw [hni, hnn, hr]; exact h2)
          ⟨l, ht, hsorted⟩ h
      · have hmul : (ring.numNodes + 1) * ring.numReplicas
            = ring.numNodes * ring.numReplicas + ring.numReplicas := by ring
        exact ih ring2 ring1 (by rw [hr]; exact h1) (by rw [hni, hnn, hr, hmul, h2])
          ⟨_, ht, (hsort _).1⟩ h

theorem reachable_add_only {sha1 : SHA1} {sorter : Sorter} (hsort : SorterSpec sorter)
    {numReplicas : Nat} {keys : List (Option (List Nat))} {ring : hash_ring_t}
    (h : run_from_create sha1 sorter numReplicas (keys.map Op.add) = some ring) :
    1 ≤ ring.numReplicas ∧ ring.numItems = ring.numNodes * ring.numReplicas ∧
    ∃ l, table ring = some l ∧ SortedByNumber l := by
  unfold run_from_create at h
  split at h
  · exact absurd h (by simp)
  · rename_i ring0 hc
    obtain ⟨hR, rfl⟩ := create_spec hc
    exact run_adds_invariant hsort keys _ ring hR (by simp)
      ⟨[], by simp [table, readAll], List.Pairwise.nil⟩ h

/-- C18 (adding a node only moves keys to the new node): let `ring` be built from
`hash_ring_create` by `hash_ring_add_node` calls only, with a table `l` of pairwise
distinct hashes, let `hash_ring_add_node` of the key `n` return `HASH_RING_OK` with
ring `ring1` (of at most `2 ^ 30` entries), and let the sorter return a sorted
permutation. Then for every non-empty probe key `k`, `hash_ring_find_node` on
`ring1` returns a result, and that result is the new node `n` or the result of
`hash_ring_find_node` on `ring`. -/
theorem C18_add_moves_keys_to_new_node (sha1 : SHA1) (sorter : Sorter)
    (hsort : SorterSpec sorter) (numReplicas : Nat) (keys : List (Option (List Nat)))
    (ring ring1 : hash_ring_t) (l : List hash_ring_item_t) (n k : List Nat)
    (hreach : run_from_create sha1 sorter numReplicas (keys.map Op.add) = some ring)
    (htable : table ring = some l)
    (hdistinct : l.Pairwise (fun x y => x.number ≠ y.number))
    (hadd : hash_ring_add_node sha1 sorter ring (some n) = some (HASH_RING_OK, ring1))
    (hsize : ring1.numItems ≤ 2 ^ 30) (hk : k ≠ []) :
    ∃ r1, hash_ring_find_node sha1 ring1 (some k) = some r1 ∧
      (r1 = some { key := n } ∨ hash_ring_find_node sha1 ring (some k) = some r1) := by
  obtain ⟨hR, hnum, l0, htable0, hsorted⟩ := reachable_add_only hsort hreach
  rw [htable] at htable0
  simp only [Option.some.injEq] at htable0
  subst htable0
  rcases add_node_add_only hsort hnum htable hadd with ⟨hrc, _⟩ |
    ⟨n1, news, hkey, _, _, _, _, _, _, hni, hnl, hown, htable1⟩
  · exact absurd hrc (by simp)
  · simp only [Option.some.injEq] at hkey
    subst hkey
    obtain ⟨hsorted1, hperm⟩ := hsort (l ++ news)
    have hlen1 := table_length htable1
    have hlenl := table_length htable
    have hklen : ¬ k.length ≤ 0 := by
      have := List.length_pos.mpr hk
      omega
    cases hd : sha1 k with
    | none =>
      exact ⟨none, by simp [hash_ring_find_node, hklen, hd],
        Or.inr (by simp [hash_ring_find_node, hklen, hd])⟩
    | some ctx =>
      have hne1 : sorter item_sort (l ++ news) ≠ [] := by
        intro hc
        have := hperm.length_eq
        rw [hc, List.length_append, hnl] at this
        simp only [List.length_nil] at this
        omega
      obtain ⟨e1, hfind1, hans1⟩ :=
        find_next_highest_item_answers htable1 hsorted1 hne1 (digest_number ctx)
          (by rw [hlen1]; exact hsize)
      refine ⟨some e1.node, by simp [hash_ring_find_node, hklen, hd, hfind1], ?_⟩
      rcases List.mem_append.mp (hperm.mem_iff.mp hans1.1) with hel | henews
      · right
        have hnel : l ≠ [] := List.ne_nil_of_mem hel
        have hsub : ∀ x ∈ l, x ∈ sorter item_sort (l ++ news) :=
          fun x hx => hperm.mem_iff.mpr (List.mem_append_left _ hx)
        obtain ⟨e, hfind, hans⟩ :=
          find_next_highest_item_answers htable hsorted hnel (digest_number ctx)
            (by
              have := hperm.length_eq
              rw [List.length_append] at this
              omega)
        have heq : e = e1 := answers_unique hdistinct hans (answers_of_subset hsub hel hans1)
        simp [hash_ring_find_node, hklen, hd, hfind, heq]
      · left
        rw [hown e1 henews]

/-- C18 at `create(1); add "A"` followed by `add "C"`: the key `A1`, routed to `A`
before, is routed to the new node `C` after; the key `x` stays with `A`. -/
theorem C18_add_moves_keys_to_new_node_witness :
    run_from_create length_sum_digest insertion_sorter 1 ([some [65]].map Op.add)
      = some ring_A ∧
    hash_ring_add_node length_sum_digest insertion_sorter ring_A (some [67])
      = some (HASH_RING_OK, ring_AC) ∧
    hash_ring_find_node length_sum_digest ring_A (some [65, 49]) = some (some { key := [65] }) ∧
    hash_ring_find_node length_sum_digest ring_AC (some [65, 49]) = some (some { key := [67] }) ∧
    hash_ring_find_node length_sum_digest ring_A (some [120]) = some (some { key := [65] }) ∧
    hash_ring_find_node length_sum_digest ring_AC (some [120]) = some (some { key := [65] }) ∧
    (∃ r1, hash_ring_find_node length_sum_digest ring_AC (some [65, 49]) = some r1 ∧
      (r1 = some { key := [67] } ∨
        hash_ring_find_node length_sum_digest ring_A (some [65, 49]) = some r1)) :=
  ⟨by decide, by decide, by decide, by decide, by decide, by decide,
   C18_add_moves_keys_to_new_node length_sum_digest insertion_sorter insertion_sorter_spec 1
     [some [65]] ring_A ring_AC [{ node := { key := [65] }, number := 8589934705 }] [67]
     [65, 49] (by decide) (by decide) (by decide) (by decide) (by decide) (by decide)⟩


/-! ## Placement by node count, and the replica index buffer -/

/-- C11: in the ring left by `create(1); add "A"; add "B"; remove "A"` the table
holds the entries of `A` and `B` and `numNodes = 1`. Adding `C` links the node,
resizes the array to `numNodes * numReplicas = 2` slots and writes the replica of
`C` at index `(numNodes - 1) * numReplicas = 1`, over the entry of the registered
node `B`; `numItems` becomes 3 on a 2-slot array, so the sorter then works past the
allocation and the call has no defined result. -/
theorem C11_add_overwrites_after_remove :
    run_from_create length_sum_digest insertion_sorter 1
        [Op.add (some [65]), Op.add (some [66]), Op.remove (some [65])]
      = some ring_B_after_remove ∧
    hash_ring_add_items length_sum_digest
        { ring_B_after_remove with
          nodes := [{ key := [67] }, { key := [66] }], numNodes := 2 } { key := [67] }
      = some (HASH_RING_OK,
          { numReplicas := 1, nodes := [{ key := [67] }, { key := [66] }], numNodes := 2,
            items := [some { node := { key := [65] }, number := 8589934705 },
                      some { node := { key := [67] }, number := 8589934707 }],
            numItems := 3 }) ∧
    hash_ring_add_node length_sum_digest insertion_sorter ring_B_after_remove (some [67])
      = none := by
  decide

/-- C12: for replica index 10000000 `snprintf` stores seven digits and the
terminating zero in `concat_buf` and returns 8, so the digest input after the key
is `1000000` followed by a zero byte, not the eight digits of the index; the entry
written (here with `length_sum_digest` and key `A`) differs from the value the
specification gives. For a nine-digit index the read leaves the buffer. -/
theorem C12_replica_index_truncated :
    concat_input 9999999 = some (decimal_string 9999999) ∧
    decimal_string 10000000 = [49, 48, 48, 48, 48, 48, 48, 48] ∧
    concat_input 10000000 = some [49, 48, 48, 48, 48, 48, 48, 0] ∧
    concat_input 100000000 = none ∧
    add_items_loop length_sum_digest { key := [65] } 1 10000001 1 10000000
        (List.replicate 10000001 none)
      = some (HASH_RING_OK, (List.replicate 10000001 none).set 10000000
          (some { node := { key := [65] }, number := 38654706066 })) ∧
    spec_replica_number length_sum_digest [65] 10000000 = some 38654706114 := by
  have hc : concat_input 10000000 = some [49, 48, 48, 48, 48, 48, 48, 0] := by decide
  refine ⟨by decide, by decide, hc, by decide, ?_, by decide⟩
  have hidx : (1 - 1) * 10000001 + 10000000
      < (List.replicate 10000001 (none : Option hash_ring_item_t)).length := by
    rw [List.length_replicate]
    decide
  have hnum : digest_number { Message_Digest := fun i =>
      if i = 3 then ([65] ++ [49, 48, 48, 48, 48, 48, 48, 0]).length
      else if i = 4 then ([65] ++ [49, 48, 48, 48, 48, 48, 48, 0]).sum else 0 }
      = 38654706066 := by decide
  rw [add_items_loop, hc]
  simp only [length_sum_digest]
  rw [if_pos hidx, hnum, add_items_loop]


end HashRing
